import Mathlib

/-!
Formal model of the RTFD content-sizing subsystem.

Python strings are modelled as `List Char` (a Python `str` is a sequence of
Unicode code points, as is a Lean `List Char`); byte counts are taken with
respect to UTF-8 via an explicit encoder.  The fragments embedded here are
`src/RTFD/content_utils.py` (section parsing, scoring, prioritisation, smart
truncation), `src/RTFD/chunking.py` (the continuation store) and the chunking
part of `src/RTFD/utils.py`.
-/

namespace RTFD

/-! ### Python string helpers -/

/-- The set of characters stripped by Python `str.strip()` and matched by the
regex class `\s` (Unicode whitespace). -/
def isPySpace (c : Char) : Bool :=
  c = ' ' || c = '\t' || c = '\n' || c = '\r' ||
  c.toNat = 0xB || c.toNat = 0xC ||
  (0x1C ≤ c.toNat && c.toNat ≤ 0x1F) ||
  c.toNat = 0x85 || c.toNat = 0xA0 || c.toNat = 0x1680 ||
  (0x2000 ≤ c.toNat && c.toNat ≤ 0x200A) ||
  c.toNat = 0x2028 || c.toNat = 0x2029 || c.toNat = 0x202F ||
  c.toNat = 0x205F || c.toNat = 0x3000

/-- Python `str.strip()`: drop leading and trailing whitespace. -/
def pyStrip (s : List Char) : List Char :=
  ((s.dropWhile isPySpace).reverse.dropWhile isPySpace).reverse

/-- Python `str.join` over a separator: `sep.join(parts)`. -/
def joinSep (sep : List Char) : List (List Char) → List Char
  | [] => []
  | [x] => x
  | x :: y :: xs => x ++ sep ++ joinSep sep (y :: xs)

/-- Python `str.split("\n")`: always yields at least one (possibly empty)
line; the separators are consumed. -/
def splitOnNl : List Char → List (List Char)
  | [] => [[]]
  | c :: rest =>
    if c = '\n' then [] :: splitOnNl rest
    else
      match splitOnNl rest with
      | l :: ls => (c :: l) :: ls
      | [] => [[c]]

/-- `startIdx`-based indexing of a list, pairing each element with its
position (models Python object identity for distinct list slots). -/
def withIdx (startIdx : Nat) : List α → List (Nat × α)
  | [] => []
  | a :: as => (startIdx, a) :: withIdx (startIdx + 1) as

/-- Whether `pat` occurs in `hay` starting at position `i`. -/
def matchAt (hay pat : List Char) (i : Nat) : Bool :=
  pat.isPrefixOf (hay.drop i)

/-- Scan indices `i, i-1, …, 0` for the last occurrence of `pat`. -/
def pyRfindAux (hay pat : List Char) : Nat → Option Nat
  | 0 => if matchAt hay pat 0 then some 0 else none
  | i + 1 => if matchAt hay pat (i + 1) then some (i + 1) else pyRfindAux hay pat i

/-- Python `str.rfind`: index of the last occurrence of `pat` in `hay`
(`none` models Python's `-1`). -/
def pyRfind (hay pat : List Char) : Option Nat :=
  pyRfindAux hay pat hay.length

/-- ASCII-only model of Python `str.lower()` (the priority keywords are all
ASCII, so keyword matching is unaffected). -/
def asciiLower (c : Char) : Char :=
  if 'A' ≤ c && c ≤ 'Z' then Char.ofNat (c.toNat + 32) else c

/-! ### UTF-8 encoding and decoding

Models Python `str.encode("utf-8")` and `bytes.decode("utf-8")`; the decoder
is strict (rejects truncated sequences, stray continuation bytes, overlong
forms, surrogates and values above U+10FFFF), as CPython's is. -/

/-- UTF-8 bytes of one scalar value. -/
def utf8EncodeChar (c : Char) : List Nat :=
  if c.toNat < 0x80 then [c.toNat]
  else if c.toNat < 0x800 then [0xC0 + c.toNat / 0x40, 0x80 + c.toNat % 0x40]
  else if c.toNat < 0x10000 then
    [0xE0 + c.toNat / 0x1000, 0x80 + c.toNat / 0x40 % 0x40, 0x80 + c.toNat % 0x40]
  else
    [0xF0 + c.toNat / 0x40000, 0x80 + c.toNat / 0x1000 % 0x40,
      0x80 + c.toNat / 0x40 % 0x40, 0x80 + c.toNat % 0x40]

/-- Python `str.encode("utf-8")`. -/
def utf8Encode : List Char → List Nat
  | [] => []
  | c :: cs => utf8EncodeChar c ++ utf8Encode cs

/-- UTF-8 byte length of a string (`len(s.encode("utf-8"))`). -/
def byteLen : List Char → Nat
  | [] => 0
  | c :: cs => (utf8EncodeChar c).length + byteLen cs

/-- Whether a byte is a UTF-8 continuation byte `0b10xxxxxx`. -/
def isCont (b : Nat) : Bool := 0x80 ≤ b && b < 0xC0

/-- Decode a two-byte sequence whose lead byte is `b`. -/
def dec2 (b : Nat) : List Nat → Option (Char × List Nat)
  | b1 :: rest =>
    if isCont b1 then
      if (b - 0xC0) * 0x40 + (b1 - 0x80) < 0x80 then none
      else some (Char.ofNat ((b - 0xC0) * 0x40 + (b1 - 0x80)), rest)
    else none
  | [] => none

/-- Decode a three-byte sequence whose lead byte is `b`. -/
def dec3 (b : Nat) : List Nat → Option (Char × List Nat)
  | b1 :: b2 :: rest =>
    if isCont b1 && isCont b2 then
      if (b - 0xE0) * 0x1000 + (b1 - 0x80) * 0x40 + (b2 - 0x80) < 0x800 then none
      else if 0xD800 ≤ (b - 0xE0) * 0x1000 + (b1 - 0x80) * 0x40 + (b2 - 0x80) &&
          (b - 0xE0) * 0x1000 + (b1 - 0x80) * 0x40 + (b2 - 0x80) < 0xE000 then none
      else some (Char.ofNat ((b - 0xE0) * 0x1000 + (b1 - 0x80) * 0x40 + (b2 - 0x80)), rest)
    else none
  | _ => none

/-- Decode a four-byte sequence whose lead byte is `b`. -/
def dec4 (b : Nat) : List Nat → Option (Char × List Nat)
  | b1 :: b2 :: b3 :: rest =>
    if isCont b1 && isCont b2 && isCont b3 then
      if (b - 0xF0) * 0x40000 + (b1 - 0x80) * 0x1000 + (b2 - 0x80) * 0x40 + (b3 - 0x80) < 0x10000 then
        none
      else if 0x10FFFF < (b - 0xF0) * 0x40000 + (b1 - 0x80) * 0x1000 + (b2 - 0x80) * 0x40 + (b3 - 0x80) then
        none
      else
        some (Char.ofNat ((b - 0xF0) * 0x40000 + (b1 - 0x80) * 0x1000 + (b2 - 0x80) * 0x40 + (b3 - 0x80)), rest)
    else none
  | _ => none

/-- Decode one scalar value from the front of a byte list.  Returns the
character and the unconsumed rest, or `none` on any malformed front. -/
def utf8DecodeChar : List Nat → Option (Char × List Nat)
  | [] => none
  | b :: rest =>
    if b < 0x80 then some (Char.ofNat b, rest)
    else if b < 0xC0 then none
    else if b < 0xE0 then dec2 b rest
    else if b < 0xF0 then dec3 b rest
    else if b < 0xF8 then dec4 b rest
    else none

/-- Fuelled decoding loop (fuel ≥ list length suffices). -/
def utf8DecodeAux : Nat → List Nat → Option (List Char)
  | _, [] => some []
  | 0, _ :: _ => none
  | fuel + 1, b :: bs =>
    match utf8DecodeChar (b :: bs) with
    | none => none
    | some (c, rest) => (utf8DecodeAux fuel rest).map (c :: ·)

/-- Python `bytes.decode("utf-8")` (`none` models `UnicodeDecodeError`). -/
def utf8DecodeBytes (l : List Nat) : Option (List Char) :=
  utf8DecodeAux l.length l

/-- The truncation backoff loop of `smart_truncate` (content_utils.py
lines 263-271): try byte-prefixes of length `tp, tp-1, …, 1` until one
decodes; `none` models falling out of the `while` into its `else`. -/
def findDecodable (bytes : List Nat) : Nat → Option (Nat × List Char)
  | 0 => none
  | tp + 1 =>
    match utf8DecodeBytes (bytes.take (tp + 1)) with
    | some cs => some (tp + 1, cs)
    | none => findDecodable bytes tp

/-! ### Lemmas about the codec -/

theorem toNat_ofNat_valid {n : Nat} (h : n.isValidChar) : (Char.ofNat n).toNat = n := by
  simp [Char.ofNat, h, Char.toNat, Char.ofNatAux]
  rfl

theorem byteLen_eq_length_utf8Encode (s : List Char) : byteLen s = (utf8Encode s).length := by
  induction s with
  | nil => rfl
  | cons c cs ih => simp [byteLen, utf8Encode, ih]

theorem byteLen_append (s t : List Char) : byteLen (s ++ t) = byteLen s + byteLen t := by
  induction s with
  | nil => simp [byteLen]
  | cons c cs ih => simp [byteLen, ih]; omega

theorem utf8EncodeChar_length_pos (c : Char) : 0 < (utf8EncodeChar c).length := by
  unfold utf8EncodeChar
  repeat' split
  all_goals simp

theorem char_toNat_valid (c : Char) : c.toNat.isValidChar := by
  have h := c.valid
  exact h

theorem char_toNat_lt (c : Char) : c.toNat < 0x110000 := by
  have h := char_toNat_valid c
  unfold Nat.isValidChar at h
  rcases h with h | ⟨_, h⟩ <;> omega

theorem char_toNat_not_surrogate (c : Char) :
    c.toNat < 0xD800 ∨ 0xE000 ≤ c.toNat := by
  have h := char_toNat_valid c
  unfold Nat.isValidChar at h
  rcases h with h | ⟨h, _⟩
  · exact Or.inl h
  · exact Or.inr h

/-- Decoding the encoding of one character (followed by anything) recovers
the character and the tail. -/
theorem utf8DecodeChar_encode (c : Char) (tl : List Nat) :
    utf8DecodeChar (utf8EncodeChar c ++ tl) = some (c, tl) := by
  have hofnat : Char.ofNat c.toNat = c := Char.ofNat_toNat c
  have hlt := char_toNat_lt c
  have hsur := char_toNat_not_surrogate c
  unfold utf8EncodeChar
  by_cases h1 : c.toNat < 0x80
  · simp only [h1, if_true, List.cons_append, List.nil_append, utf8DecodeChar]
    rw [hofnat]
  · by_cases h2 : c.toNat < 0x800
    · simp only [h1, if_false, h2, if_true, List.cons_append, List.nil_append,
        utf8DecodeChar]
      rw [if_neg (by omega), if_neg (by omega), if_pos (by omega)]
      simp only [dec2]
      rw [if_pos (by simp [isCont]; omega)]
      have hv : (0xC0 + c.toNat / 0x40 - 0xC0) * 0x40 + (0x80 + c.toNat % 0x40 - 0x80) = c.toNat := by
        omega
      rw [hv, if_neg (by omega), hofnat]
    · by_cases h3 : c.toNat < 0x10000
      · simp only [h1, if_false, h2, if_false, h3, if_true, List.cons_append,
          List.nil_append, utf8DecodeChar]
        rw [if_neg (by omega), if_neg (by omega), if_neg (by omega), if_pos (by omega)]
        simp only [dec3]
        rw [if_pos (by simp [isCont]; omega)]
        have hv : (0xE0 + c.toNat / 0x1000 - 0xE0) * 0x1000 +
            (0x80 + c.toNat / 0x40 % 0x40 - 0x80) * 0x40 +
            (0x80 + c.toNat % 0x40 - 0x80) = c.toNat := by omega
        rw [hv, if_neg (by omega), if_neg (by simp; omega), hofnat]
      · simp only [h1, if_false, h2, if_false, h3, if_false, List.cons_append,
          List.nil_append, utf8DecodeChar]
        rw [if_neg (by omega), if_neg (by omega), if_neg (by omega),
          if_neg (by omega), if_pos (by omega)]
        simp only [dec4]
        rw [if_pos (by simp [isCont]; omega)]
        have hv : (0xF0 + c.toNat / 0x40000 - 0xF0) * 0x40000 +
            (0x80 + c.toNat / 0x1000 % 0x40 - 0x80) * 0x1000 +
            (0x80 + c.toNat / 0x40 % 0x40 - 0x80) * 0x40 +
            (0x80 + c.toNat % 0x40 - 0x80) = c.toNat := by omega
        rw [hv, if_neg (by omega), if_neg (by omega), hofnat]

theorem utf8EncodeChar_length_one {c : Char} (h : c.toNat < 0x80) :
    (utf8EncodeChar c).length = 1 := by
  unfold utf8EncodeChar
  rw [if_pos h]
  rfl

theorem utf8EncodeChar_length_two {c : Char} (h1 : 0x80 ≤ c.toNat) (h2 : c.toNat < 0x800) :
    (utf8EncodeChar c).length = 2 := by
  unfold utf8EncodeChar
  rw [if_neg (by omega), if_pos h2]
  rfl

theorem utf8EncodeChar_length_three {c : Char} (h1 : 0x800 ≤ c.toNat) (h2 : c.toNat < 0x10000) :
    (utf8EncodeChar c).length = 3 := by
  unfold utf8EncodeChar
  rw [if_neg (by omega), if_neg (by omega), if_pos h2]
  rfl

theorem utf8EncodeChar_length_four {c : Char} (h1 : 0x10000 ≤ c.toNat) :
    (utf8EncodeChar c).length = 4 := by
  unfold utf8EncodeChar
  rw [if_neg (by omega), if_neg (by omega), if_neg (by omega)]
  rfl

theorem dec2_spec {b : Nat} (hb : b < 0xE0) {l : List Nat} {c : Char} {r : List Nat}
    (h : dec2 b l = some (c, r)) :
    l.length = 1 + r.length ∧ 0x80 ≤ c.toNat ∧ c.toNat < 0x800 := by
  match l with
  | [] => simp [dec2] at h
  | b1 :: rest =>
    simp only [dec2] at h
    split at h
    · split at h
      · exact absurd h (by simp)
      · rename_i hcont hge
        simp only [Option.some.injEq, Prod.mk.injEq] at h
        obtain ⟨hc, hr⟩ := h
        subst hr
        have hb1 : 0x80 ≤ b1 ∧ b1 < 0xC0 := by
          simp [isCont] at hcont; omega
        have hvv : ((b - 0xC0) * 0x40 + (b1 - 0x80)).isValidChar := Or.inl (by omega)
        have hn : c.toNat = (b - 0xC0) * 0x40 + (b1 - 0x80) := by
          rw [← hc]; exact toNat_ofNat_valid hvv
        exact ⟨by simp only [List.length_cons]; omega, by omega, by omega⟩
    · exact absurd h (by simp)

theorem dec3_spec {b : Nat} (hb : b < 0xF0) {l : List Nat} {c : Char} {r : List Nat}
    (h : dec3 b l = some (c, r)) :
    l.length = 2 + r.length ∧ 0x800 ≤ c.toNat ∧ c.toNat < 0x10000 := by
  match l with
  | [] => simp [dec3] at h
  | [_] => simp [dec3] at h
  | b1 :: b2 :: rest =>
    simp only [dec3] at h
    split at h
    · split at h
      · exact absurd h (by simp)
      · split at h
        · exact absurd h (by simp)
        · rename_i hcont hge hsur
          simp only [Option.some.injEq, Prod.mk.injEq] at h
          obtain ⟨hc, hr⟩ := h
          subst hr
          have hb12 : 0x80 ≤ b1 ∧ b1 < 0xC0 ∧ 0x80 ≤ b2 ∧ b2 < 0xC0 := by
            simp [isCont] at hcont; omega
          have hsur2 : ¬ (0xD800 ≤ (b - 0xE0) * 0x1000 + (b1 - 0x80) * 0x40 + (b2 - 0x80) ∧
              (b - 0xE0) * 0x1000 + (b1 - 0x80) * 0x40 + (b2 - 0x80) < 0xE000) := by
            simpa using hsur
          have hvv : ((b - 0xE0) * 0x1000 + (b1 - 0x80) * 0x40 + (b2 - 0x80)).isValidChar := by
            by_cases hd : (b - 0xE0) * 0x1000 + (b1 - 0x80) * 0x40 + (b2 - 0x80) < 0xD800
            · exact Or.inl hd
            · exact Or.inr ⟨by omega, by omega⟩
          have hn : c.toNat = (b - 0xE0) * 0x1000 + (b1 - 0x80) * 0x40 + (b2 - 0x80) := by
            rw [← hc]; exact toNat_ofNat_valid hvv
          exact ⟨by simp only [List.length_cons]; omega, by omega, by omega⟩
    · exact absurd h (by simp)

theorem dec4_spec {b : Nat} {l : List Nat} {c : Char} {r : List Nat}
    (h : dec4 b l = some (c, r)) :
    l.length = 3 + r.length ∧ 0x10000 ≤ c.toNat := by
  match l with
  | [] => simp [dec4] at h
  | [_] => simp [dec4] at h
  | [_, _] => simp [dec4] at h
  | b1 :: b2 :: b3 :: rest =>
    simp only [dec4] at h
    split at h
    · split at h
      · exact absurd h (by simp)
      · split at h
        · exact absurd h (by simp)
        · rename_i hcont hge hmax
          simp only [Option.some.injEq, Prod.mk.injEq] at h
          obtain ⟨hc, hr⟩ := h
          subst hr
          have hvv : ((b - 0xF0) * 0x40000 + (b1 - 0x80) * 0x1000 + (b2 - 0x80) * 0x40 + (b3 - 0x80)).isValidChar := by
            refine Or.inr ⟨by omega, by omega⟩
          have hn : c.toNat = (b - 0xF0) * 0x40000 + (b1 - 0x80) * 0x1000 + (b2 - 0x80) * 0x40 + (b3 - 0x80) := by
            rw [← hc]; exact toNat_ofNat_valid hvv
          exact ⟨by simp only [List.length_cons]; omega, by omega⟩
    · exact absurd h (by simp)

/-- A successful single-character decode consumes exactly the bytes of the
character's encoding. -/
theorem utf8DecodeChar_consumed {l : List Nat} {c : Char} {rest : List Nat}
    (h : utf8DecodeChar l = some (c, rest)) :
    l.length = (utf8EncodeChar c).length + rest.length := by
  match l with
  | [] => simp [utf8DecodeChar] at h
  | b :: tail =>
    simp only [utf8DecodeChar] at h
    split at h
    · rename_i hb
      simp only [Option.some.injEq, Prod.mk.injEq] at h
      obtain ⟨hc, hr⟩ := h
      subst hr
      have hn : c.toNat = b := by
        rw [← hc]; exact toNat_ofNat_valid (Or.inl (by omega))
      rw [utf8EncodeChar_length_one (by omega)]
      simp only [List.length_cons]
      omega
    · split at h
      · exact absurd h (by simp)
      · split at h
        · rename_i hb1 hb2 hb3
          obtain ⟨hl, hlo, hhi⟩ := dec2_spec hb3 h
          rw [utf8EncodeChar_length_two hlo hhi]
          simp at hl ⊢
          omega
        · split at h
          · rename_i hb1 hb2 hb3 hb4
            obtain ⟨hl, hlo, hhi⟩ := dec3_spec hb4 h
            rw [utf8EncodeChar_length_three hlo hhi]
            simp at hl ⊢
            omega
          · split at h
            · obtain ⟨hl, hlo⟩ := dec4_spec h
              rw [utf8EncodeChar_length_four hlo]
              simp at hl ⊢
              omega
            · exact absurd h (by simp)

theorem utf8DecodeChar_shrinks {l : List Nat} {c : Char} {rest : List Nat}
    (h : utf8DecodeChar l = some (c, rest)) : rest.length < l.length := by
  have := utf8DecodeChar_consumed h
  have := utf8EncodeChar_length_pos c
  omega

/-- The fuelled decoder is fuel-irrelevant above the list length. -/
theorem utf8DecodeAux_fuel :
    ∀ (fuel fuel' : Nat) (l : List Nat), l.length ≤ fuel → l.length ≤ fuel' →
      utf8DecodeAux fuel l = utf8DecodeAux fuel' l := by
  intro fuel
  induction fuel using Nat.strong_induction_on with
  | _ fuel ih =>
    intro fuel' l h1 h2
    match l with
    | [] => cases fuel <;> cases fuel' <;> rfl
    | b :: bs =>
      cases fuel with
      | zero => simp at h1
      | succ f =>
        cases fuel' with
        | zero => simp at h2
        | succ f' =>
          simp only [utf8DecodeAux]
          split
          · rfl
          · rename_i c rest hd
            have hlt := utf8DecodeChar_shrinks hd
            simp only [List.length_cons] at h1 h2 hlt
            rw [ih f (by omega) f' rest (by omega) (by omega)]

theorem utf8DecodeBytes_nil : utf8DecodeBytes [] = some [] := rfl

/-- Unfolding of `utf8DecodeBytes` one character at a time. -/
theorem utf8DecodeBytes_cons (b : Nat) (bs : List Nat) :
    utf8DecodeBytes (b :: bs) =
      match utf8DecodeChar (b :: bs) with
      | none => none
      | some (c, rest) => (utf8DecodeBytes rest).map (c :: ·) := by
  unfold utf8DecodeBytes
  simp only [List.length_cons, utf8DecodeAux]
  split
  · rfl
  · rename_i c rest hd
    have hlt := utf8DecodeChar_shrinks hd
    simp only [List.length_cons] at hlt
    rw [utf8DecodeAux_fuel bs.length rest.length rest (by omega) (le_refl _)]

/-- Round trip: decoding an encoded string always succeeds and recovers it. -/
theorem utf8DecodeBytes_encode (s : List Char) :
    utf8DecodeBytes (utf8Encode s) = some s := by
  induction s with
  | nil => rfl
  | cons c cs ih =>
    have hne : utf8Encode (c :: cs) = utf8EncodeChar c ++ utf8Encode cs := rfl
    rw [hne]
    have hpos := utf8EncodeChar_length_pos c
    match he : utf8EncodeChar c with
    | [] => rw [he] at hpos; simp at hpos
    | b :: bs =>
      have : (b :: bs) ++ utf8Encode cs = b :: (bs ++ utf8Encode cs) := rfl
      rw [this, utf8DecodeBytes_cons]
      have hd : utf8DecodeChar (b :: (bs ++ utf8Encode cs)) = some (c, utf8Encode cs) := by
        have := utf8DecodeChar_encode c (utf8Encode cs)
        rwa [he] at this
      rw [hd]
      simp [ih]

/-- A successful decode of `l` yields a string of UTF-8 byte length exactly
`l.length`. -/
theorem utf8DecodeBytes_byteLen {l : List Nat} {cs : List Char}
    (h : utf8DecodeBytes l = some cs) : byteLen cs = l.length := by
  have main : ∀ (n : Nat) (l : List Nat) (cs : List Char), l.length ≤ n →
      utf8DecodeBytes l = some cs → byteLen cs = l.length := by
    intro n
    induction n with
    | zero =>
      intro l cs hn h
      match l with
      | [] =>
        simp [utf8DecodeBytes, utf8DecodeAux] at h
        subst h; rfl
      | b :: bs => simp at hn
    | succ n ih =>
      intro l cs hn h
      match l with
      | [] =>
        simp [utf8DecodeBytes, utf8DecodeAux] at h
        subst h; rfl
      | b :: bs =>
        rw [utf8DecodeBytes_cons] at h
        split at h
        · exact absurd h (by simp)
        · rename_i c rest hd
          have hlt := utf8DecodeChar_shrinks hd
          cases hr : utf8DecodeBytes rest with
          | none => rw [hr] at h; simp at h
          | some cs' =>
            rw [hr] at h
            simp at h
            subst h
            have hrec := ih rest cs'
              (by simp only [List.length_cons] at hn hlt; omega) hr
            have hcons := utf8DecodeChar_consumed hd
            simp only [byteLen]
            simp only [List.length_cons] at hcons ⊢
            omega
  exact main l.length l cs (le_refl _) h

/-- What a successful backoff search yields: a positive truncation point not
above the requested one, whose byte-prefix decodes, and maximal among such
points (the "nearest valid boundary"). -/
theorem findDecodable_spec {bytes : List Nat} :
    ∀ {tp t : Nat} {cs : List Char}, findDecodable bytes tp = some (t, cs) →
      1 ≤ t ∧ t ≤ tp ∧ utf8DecodeBytes (bytes.take t) = some cs ∧
        ∀ u, t < u → u ≤ tp → utf8DecodeBytes (bytes.take u) = none := by
  intro tp
  induction tp with
  | zero => intro t cs h; exact absurd h (by simp [findDecodable])
  | succ n ih =>
    intro t cs h
    unfold findDecodable at h
    match hd : utf8DecodeBytes (bytes.take (n + 1)) with
    | some cs' =>
      rw [hd] at h
      simp at h
      obtain ⟨h1, h2⟩ := h
      subst h1; subst h2
      exact ⟨by omega, le_refl _, hd, fun u hu1 hu2 => by omega⟩
    | none =>
      rw [hd] at h
      simp at h
      obtain ⟨h1, h2, h3, h4⟩ := ih h
      refine ⟨h1, by omega, h3, fun u hu1 hu2 => ?_⟩
      by_cases he : u = n + 1
      · subst he; exact hd
      · exact h4 u hu1 (by omega)

/-! ### content_utils.py: sections, scoring, truncation, prioritisation -/

/-- `Section` dataclass of content_utils.py. -/
structure Section where
  level : Nat
  title : List Char
  content : List Char
  priority : Nat
  size_bytes : Nat
deriving DecidableEq, Repr

/-- `PRIORITY_KEYWORDS`, already in the descending key order produced by
`sorted(PRIORITY_KEYWORDS.items(), reverse=True)`. -/
def priorityKeywords : List (Nat × List (List Char)) :=
  [(100, [("overview").data, ("introduction").data, ("about").data, ("description").data]),
   (90, [("install").data, ("installation").data, ("setup").data, ("getting started").data,
         ("get started").data]),
   (85, [("quickstart").data, ("quick start").data, ("tutorial").data, ("guide").data,
         ("walkthrough").data]),
   (80, [("usage").data, ("example").data, ("examples").data, ("how to").data, ("howto").data]),
   (70, [("api").data, ("reference").data, ("methods").data, ("functions").data, ("classes").data]),
   (60, [("configuration").data, ("config").data, ("options").data, ("settings").data,
         ("parameters").data]),
   (50, [("advanced").data, ("tips").data, ("best practices").data, ("patterns").data]),
   (40, [("changelog").data, ("history").data, ("releases").data, ("versions").data])]

/-- Python substring test `pat in hay`. -/
def kwIn (pat hay : List Char) : Bool :=
  (List.range (hay.length + 1)).any (fun i => pat.isPrefixOf (hay.drop i))

/-- `any(kw in title_lower for kw in keywords)`. -/
def kwMatch (tl : List Char) (kws : List (List Char)) : Bool :=
  kws.any (fun kw => kwIn kw tl)

def scoreLoop (tl : List Char) : List (Nat × List (List Char)) → Nat
  | [] => 30
  | (score, kws) :: rest => if kwMatch tl kws then score else scoreLoop tl rest

/-- `score_section` of content_utils.py. -/
def score_section (title : List Char) : Nat :=
  if title.isEmpty then 30
  else scoreLoop (title.map asciiLower) priorityKeywords

/-- Number of leading `#` characters of a line. -/
def headingLevel (line : List Char) : Nat :=
  (line.takeWhile (fun c => c == '#')).length

/-- Result of `re.match(r"^(#{1,6})\s+(.+)$", line)` followed by
`.group(2).strip()`.  A line matches iff its leading run of `#` has length
`j` with `1 ≤ j ≤ 6`, the character at position `j` is whitespace, and at
least one further character follows (with backtracking, `\s+` then takes one
whitespace character and `.+` the non-empty remainder; a leading run of 7 or
more `#` can never match since every shorter `#{1,6}` is followed by `#`).
The stripped title equals `pyStrip` of everything after the hashes, because
group(2) differs from that suffix only by leading whitespace. -/
def headingOf (line : List Char) : Option (Nat × List Char) :=
  match line.drop (headingLevel line) with
  | c :: rest =>
    if 1 ≤ headingLevel line && headingLevel line ≤ 6 && isPySpace c &&
        decide (1 ≤ rest.length) then
      some (headingLevel line, pyStrip (line.drop (headingLevel line)))
    else none
  | [] => none

def mkSection (level : Nat) (title : List Char) (content : List Char) : Section :=
  ⟨level, title, content, score_section title, byteLen content⟩

/-- The line loop of `extract_sections` (content_utils.py lines 120-156):
state is the accumulated sections, the current section's lines, level and
title. -/
def extractLoop : List (List Char) → List Section → List (List Char) → Nat → List Char → List Section
  | [], acc, curLines, curLevel, curTitle =>
    if curLines.isEmpty then acc
    else acc ++ [mkSection curLevel curTitle (joinSep ['\n'] curLines)]
  | line :: rest, acc, curLines, curLevel, curTitle =>
    match headingOf line with
    | some (lvl, title) =>
      extractLoop rest
        (if curLines.isEmpty then acc
         else acc ++ [mkSection curLevel curTitle (joinSep ['\n'] curLines)])
        [line] lvl title
    | none => extractLoop rest acc (curLines ++ [line]) curLevel curTitle

/-- `extract_sections` of content_utils.py. -/
def extract_sections (markdown : List Char) : List Section :=
  if (pyStrip markdown).isEmpty then []
  else
    match extractLoop (splitOnNl markdown) [] [] 0 [] with
    | [] => [⟨0, ("Documentation").data, markdown, 100, byteLen markdown⟩]
    | s :: ss => s :: ss

/-! #### smart_truncate

The break-point conditions compare a character index against
`max_bytes * 0.7`; the Python float product is modelled as the exact
rational, i.e. `i > 0.7 * mb` becomes `10 * i > 7 * mb` (the double
rounding of `0.7` can differ from the exact rational only when
`10 * i = 7 * mb` up to one ulp; no theorem below depends on such a tie). -/

def nlnl : List Char := ['\n', '\n']

def dots3 : List Char := ['.', '.', '.']

/-- `"\n\n..."`. -/
def paraSuffix : List Char := ['\n', '\n', '.', '.', '.']

/-- The sentence-break markers `[".\n", "!\n", "?\n"]`. -/
def puncts : List (List Char) := [['.', '\n'], ['!', '\n'], ['?', '\n']]

/-- Paragraph-break candidate (content_utils.py lines 274-278). -/
def tryPara (truncated : List Char) (mb : Nat) : Option (List Char) :=
  match pyRfind truncated nlnl with
  | some i =>
    if 10 * i > 7 * mb then
      if byteLen (pyStrip (truncated.take i) ++ paraSuffix) ≤ mb then
        some (pyStrip (truncated.take i) ++ paraSuffix)
      else none
    else none
  | none => none

/-- Sentence-break candidates (content_utils.py lines 281-286). -/
def trySent (truncated : List Char) (mb : Nat) : List (List Char) → Option (List Char)
  | [] => none
  | p :: ps =>
    match pyRfind truncated p with
    | some i =>
      if 10 * i > 7 * mb then
        if byteLen (pyStrip (truncated.take (i + 1)) ++ paraSuffix) ≤ mb then
          some (pyStrip (truncated.take (i + 1)) ++ paraSuffix)
        else trySent truncated mb ps
      else trySent truncated mb ps
    | none => trySent truncated mb ps

/-- Word-break candidate (content_utils.py lines 289-293). -/
def tryWord (truncated : List Char) (mb : Nat) : Option (List Char) :=
  match pyRfind truncated [' '] with
  | some i =>
    if 0 < i then
      if byteLen (pyStrip (truncated.take i) ++ dots3) ≤ mb then
        some (pyStrip (truncated.take i) ++ dots3)
      else none
    else none
  | none => none

/-- `smart_truncate` of content_utils.py. -/
def smart_truncate (text : List Char) (max_bytes : Nat) : List Char :=
  if text.isEmpty then []
  else if byteLen text ≤ max_bytes then text
  else
    match findDecodable (utf8Encode text) max_bytes with
    | none => []
    | some (_, truncated) =>
      match tryPara truncated max_bytes with
      | some r => r
      | none =>
        match trySent truncated max_bytes puncts with
        | some r => r
        | none =>
          match tryWord truncated max_bytes with
          | some r => r
          | none =>
            if max_bytes ≤ 3 then List.replicate max_bytes '.'
            else
              match findDecodable (utf8Encode text) (max_bytes - 3) with
              | none => dots3
              | some (_, t2) => pyStrip t2 ++ dots3

/-! #### prioritize_sections

Python deduplicates the accepted set via `id(section)`; since every list
slot holds a distinct dataclass instance, object identity is modelled by
pairing each of the remaining sections with its position (`withIdx`). -/

/-- One stable insertion for descending sort by priority: an element goes
after every element of priority ≥ its own, as Python's stable
`sorted(key=priority, reverse=True)` orders equal keys. -/
def insertDesc (p : Nat × Section) : List (Nat × Section) → List (Nat × Section)
  | [] => [p]
  | q :: qs => if p.2.priority > q.2.priority then p :: q :: qs else q :: insertDesc p qs

/-- `sorted(sections[1:], key=lambda s: s.priority, reverse=True)`. -/
def sortByPriorityDesc (l : List (Nat × Section)) : List (Nat × Section) :=
  l.foldr insertDesc []

/-- The greedy loop (content_utils.py lines 222-225): returns the accepted
entries in scan order together with the final remaining budget. -/
def greedy : List (Nat × Section) → Nat → List (Nat × Section) × Nat
  | [], rem => ([], rem)
  | p :: ps, rem =>
    if p.2.size_bytes ≤ rem then
      match greedy ps (rem - p.2.size_bytes) with
      | (c, r) => (p :: c, r)
    else greedy ps rem

/-- Indices (positions in `sections`, starting at 1) accepted by the greedy
pass over the priority-sorted remaining sections. -/
def selectedIdx (rest : List Section) (budget : Nat) : List Nat :=
  ((greedy (sortByPriorityDesc (withIdx 1 rest)) budget).1).map Prod.fst

/-- `prioritize_sections` of content_utils.py. -/
def prioritize_sections (sections : List Section) (max_bytes : Nat) : List Char :=
  match sections with
  | [] => []
  | s0 :: rest =>
    if s0.size_bytes > max_bytes then smart_truncate s0.content max_bytes
    else
      joinSep nlnl (s0.content ::
        ((withIdx 1 rest).filter
            (fun p => (selectedIdx rest (max_bytes - s0.size_bytes)).contains p.1)).map
          (fun p => p.2.content))


/-! ### chunking.py and utils.py: the Chunk Sequencer

The tokenizer (`tiktoken`, an external collaborator) is abstracted as a pair
`enc : List Char → List τ`, `dec : List τ → List Char`; the spec (section 6)
requires it to be deterministic and reversible.  Time is an `Int` (only
differences and order are ever used), the SQLite table keyed by the `uuid4`
token is an association list keyed by `Nat`, and freshly generated tokens
are explicit parameters (uuid collision-resistance is an assumption of the
code).  Storage faults are modelled by the `readFails`/`writeFails` flags:
when set, the corresponding SQL statement raises. -/

/-- One row of the `continuations` table.  Of the JSON `metadata` only the
`chunk_number` entry is modelled (`none` = key absent, read back through
`metadata.get("chunk_number", 1)`); the other entries never influence
control flow. -/
structure ContinuationRecord where
  remaining_content : List Char
  chunk_number : Option Nat
  timestamp : Int
deriving DecidableEq, Repr

/-- The `continuations` table. -/
abbrev Store := List (Nat × ContinuationRecord)

/-- `SELECT … WHERE token = ?` (the token column is the primary key). -/
def lookupTok : Store → Nat → Option ContinuationRecord
  | [], _ => none
  | (t, r) :: rest, tok => if t = tok then some r else lookupTok rest tok

/-- `DELETE FROM continuations WHERE token = ?`. -/
def eraseTok (st : Store) (tok : Nat) : Store :=
  st.filter (fun p => p.1 != tok)

/-- `cleanup_expired` (chunking.py lines 181-200): remove every row with
`timestamp < now - ttl`. -/
def cleanup_expired (now ttl : Int) (st : Store) : Store :=
  st.filter (fun p => !decide (p.2.timestamp < now - ttl))

/-- `store_continuation` (chunking.py lines 60-93): `INSERT` a fresh row;
a storage error is re-raised to the caller (`Except.error`). -/
def store_continuation (writeFails : Bool) (st : Store) (fresh : Nat)
    (remaining_content : List Char) (chunk_number : Option Nat) (now : Int) :
    Except Unit Store :=
  if writeFails then Except.error ()
  else Except.ok (st ++ [(fresh, ⟨remaining_content, chunk_number, now⟩)])

/-- The dict returned by `get_next_chunk`. -/
structure ChunkResponse where
  content : List Char
  chunk_number : Nat
  has_more : Bool
  continuation_token : Option Nat
  tokens_in_chunk : Nat
  remaining_tokens : Nat
deriving DecidableEq, Repr

/-- `get_next_chunk` (chunking.py lines 95-179), returning the response (or
`none`) and the table left behind.  The function first runs
`cleanup_expired`, then looks the token up (a read fault is caught by the
enclosing `except` and surfaces as `none`), re-checks expiry, and either
consumes the row (final chunk) or stores the successor row under `fresh`
and then deletes the old row.  A write fault inside `store_continuation`
propagates into the enclosing `except` of `get_next_chunk`, which catches
every exception and returns `none`, leaving the old row in place. -/
def get_next_chunk {τ : Type} (enc : List Char → List τ) (dec : List τ → List Char)
    (readFails writeFails : Bool) (st0 : Store) (token : Nat) (chunk_size : Nat)
    (now ttl : Int) (fresh : Nat) : Option ChunkResponse × Store :=
  if readFails then (none, cleanup_expired now ttl st0)
  else
    match lookupTok (cleanup_expired now ttl st0) token with
    | none => (none, cleanup_expired now ttl st0)
    | some r0 =>
      if now - r0.timestamp > ttl then
        (none, eraseTok (cleanup_expired now ttl st0) token)
      else if (enc r0.remaining_content).length ≤ chunk_size then
        (some ⟨r0.remaining_content, r0.chunk_number.getD 1 + 1, false, none,
            (enc r0.remaining_content).length, 0⟩,
          eraseTok (cleanup_expired now ttl st0) token)
      else if writeFails then (none, cleanup_expired now ttl st0)
      else
        (some ⟨dec ((enc r0.remaining_content).take chunk_size),
            r0.chunk_number.getD 1 + 1, true, some fresh,
            (enc (dec ((enc r0.remaining_content).take chunk_size))).length,
            (enc r0.remaining_content).length - chunk_size⟩,
          eraseTok
            (cleanup_expired now ttl st0 ++
              [(fresh, ⟨dec ((enc r0.remaining_content).drop chunk_size),
                some (r0.chunk_number.getD 1 + 1), now⟩)])
            token)

/-- The `chunking` metadata attached to a response by
`chunk_and_serialize_response`. -/
inductive ChunkingInfo where
  | unchunked (tokens_in_content : Nat)
  | chunked (chunk_number : Nat) (has_more : Bool) (continuation_token : Nat)
      (tokens_in_chunk : Nat) (remaining_tokens : Nat)
deriving DecidableEq, Repr

/-- The chunking core of `chunk_and_serialize_response` (utils.py lines
108-196) for a string content field: content fitting the chunk budget (or
chunking disabled) passes through unchunked; otherwise the token sequence
is split at `chunk_size`, the remainder is stored as a continuation with
`chunk_number = 1` (a write fault propagates), and the first slice is
returned with the fresh token. -/
def chunk_and_serialize_response {τ : Type} (enc : List Char → List τ)
    (dec : List τ → List Char) (writeFails : Bool) (st : Store)
    (content : List Char) (chunk_size : Nat) (fresh : Nat) (now : Int) :
    Except Unit ((List Char × ChunkingInfo) × Store) :=
  if chunk_size = 0 || content.isEmpty then
    Except.ok ((content, ChunkingInfo.unchunked (enc content).length), st)
  else if (enc content).length ≤ chunk_size then
    Except.ok ((content, ChunkingInfo.unchunked (enc content).length), st)
  else
    match store_continuation writeFails st fresh
        (dec ((enc content).drop chunk_size)) (some 1) now with
    | Except.error e => Except.error e
    | Except.ok st' =>
      Except.ok ((dec ((enc content).take chunk_size),
        ChunkingInfo.chunked 1 true fresh ((enc content).take chunk_size).length
          ((enc content).drop chunk_size).length), st')

/-- Largest token in the table (0 for the empty table). -/
def maxKey : Store → Nat
  | [] => 0
  | (t, _) :: rest => max t (maxKey rest)

/-- A deterministic stand-in for `uuid4`: a token strictly larger than every
stored one, hence fresh. -/
def freshTok (st : Store) : Nat := maxKey st + 1

/-- The caller's retrieval loop of spec section 8 ("successive getNextChunk
calls"): keep following continuation tokens, concatenating the delivered
slices, until a response with `has_more = false`; `none` on "not found" or
fuel exhaustion. -/
def drainChunks {τ : Type} (enc : List Char → List τ) (dec : List τ → List Char) :
    Nat → Store → Nat → Nat → Int → Int → Option (List Char)
  | 0, _, _, _, _, _ => none
  | fuel + 1, st, tok, cs, now, ttl =>
    match get_next_chunk enc dec false false st tok cs now ttl (freshTok st) with
    | (none, _) => none
    | (some resp, st') =>
      if resp.has_more then
        match resp.continuation_token with
        | some t' => (drainChunks enc dec fuel st' t' cs now ttl).map
            (fun r => resp.content ++ r)
        | none => none
      else some resp.content

/-! ### Lemmas: byte-length bookkeeping -/

theorem byteLen_reverse (s : List Char) : byteLen s.reverse = byteLen s := by
  induction s with
  | nil => rfl
  | cons c cs ih =>
    simp only [List.reverse_cons, byteLen_append, byteLen, ih]
    omega

theorem byteLen_dropWhile_le (p : Char → Bool) (s : List Char) :
    byteLen (s.dropWhile p) ≤ byteLen s := by
  induction s with
  | nil => exact le_refl _
  | cons c cs ih =>
    by_cases h : p c
    · simp only [List.dropWhile_cons, h, if_true]
      have := utf8EncodeChar_length_pos c
      simp only [byteLen]
      omega
    · simp only [List.dropWhile_cons, h, if_false]
      exact le_refl _

theorem byteLen_pyStrip_le (s : List Char) : byteLen (pyStrip s) ≤ byteLen s := by
  unfold pyStrip
  calc byteLen ((s.dropWhile isPySpace).reverse.dropWhile isPySpace).reverse
      = byteLen ((s.dropWhile isPySpace).reverse.dropWhile isPySpace) := byteLen_reverse _
    _ ≤ byteLen (s.dropWhile isPySpace).reverse := byteLen_dropWhile_le _ _
    _ = byteLen (s.dropWhile isPySpace) := byteLen_reverse _
    _ ≤ byteLen s := byteLen_dropWhile_le _ _

theorem byteLen_replicate_dot (n : Nat) : byteLen (List.replicate n '.') = n := by
  induction n with
  | zero => rfl
  | succ n ih =>
    simp only [List.replicate_succ, byteLen, ih]
    have : (utf8EncodeChar '.').length = 1 := by decide
    omega

theorem byteLen_dots3 : byteLen dots3 = 3 := by decide

theorem byteLen_paraSuffix : byteLen paraSuffix = 5 := by decide

theorem byteLen_nlnl : byteLen nlnl = 2 := by decide

/-! ### Lemmas: the break-point candidates respect the byte budget -/

theorem tryPara_le {tr : List Char} {mb : Nat} {r : List Char}
    (h : tryPara tr mb = some r) : byteLen r ≤ mb := by
  unfold tryPara at h
  split at h
  · split at h
    · split at h
      · rename_i hfit
        simp only [Option.some.injEq] at h
        subst h
        exact hfit
      · exact absurd h (by simp)
    · exact absurd h (by simp)
  · exact absurd h (by simp)

theorem trySent_le {tr : List Char} {mb : Nat} {r : List Char} :
    ∀ {ps : List (List Char)}, trySent tr mb ps = some r → byteLen r ≤ mb := by
  intro ps
  induction ps with
  | nil => intro h; exact absurd h (by simp [trySent])
  | cons p ps ih =>
    intro h
    unfold trySent at h
    split at h
    · split at h
      · split at h
        · rename_i hfit
          simp only [Option.some.injEq] at h
          subst h
          exact hfit
        · exact ih h
      · exact ih h
    · exact ih h

theorem tryWord_le {tr : List Char} {mb : Nat} {r : List Char}
    (h : tryWord tr mb = some r) : byteLen r ≤ mb := by
  unfold tryWord at h
  split at h
  · split at h
    · split at h
      · rename_i hfit
        simp only [Option.some.injEq] at h
        subst h
        exact hfit
      · exact absurd h (by simp)
    · exact absurd h (by simp)
  · exact absurd h (by simp)

/-- Every return path of `smart_truncate` fits the byte budget. -/
theorem smart_truncate_le (text : List Char) (mb : Nat) :
    byteLen (smart_truncate text mb) ≤ mb := by
  unfold smart_truncate
  split
  · simp [byteLen]
  · split
    · assumption
    · split
      · simp [byteLen]
      · split
        · rename_i hr
          exact tryPara_le hr
        · split
          · rename_i hr
            exact trySent_le hr
          · split
            · rename_i hr
              exact tryWord_le hr
            · split
              · rename_i hmb
                rw [byteLen_replicate_dot]
              · split
                · rename_i hmb hfd2
                  rw [byteLen_dots3]
                  omega
                · rename_i hmb tp2 s2 hfd2
                  obtain ⟨h1, h2, h3, h4⟩ := findDecodable_spec hfd2
                  have hlen : byteLen s2 = ((utf8Encode text).take tp2).length :=
                    utf8DecodeBytes_byteLen h3
                  have htake : ((utf8Encode text).take tp2).length ≤ tp2 :=
                    (utf8Encode text).length_take_le tp2
                  have hps : byteLen (pyStrip s2) ≤ byteLen s2 := byteLen_pyStrip_le s2
                  rw [byteLen_append, byteLen_dots3]
                  omega

/-! ### Lemmas: idempotence of smart_truncate -/

theorem smart_truncate_idem (text : List Char) (mb : Nat) :
    smart_truncate (smart_truncate text mb) mb = smart_truncate text mb := by
  have hle := smart_truncate_le text mb
  generalize hr : smart_truncate text mb = r at hle
  cases r with
  | nil => rfl
  | cons c cs =>
    unfold smart_truncate
    rw [if_neg (by simp), if_pos hle]

/-! ### Lemmas: the greedy selection and the output budget -/

theorem greedy_sublist : ∀ (l : List (Nat × Section)) (rem : Nat),
    (greedy l rem).1.Sublist l := by
  intro l
  induction l with
  | nil => intro rem; simp [greedy]
  | cons p ps ih =>
    intro rem
    unfold greedy
    split
    · have h := ih (rem - p.2.size_bytes)
      cases hg : greedy ps (rem - p.2.size_bytes) with
      | mk c r =>
        rw [hg] at h
        simpa using h.cons₂ p
    · exact (ih rem).cons p

theorem greedy_sum_le : ∀ (l : List (Nat × Section)) (rem : Nat),
    ((greedy l rem).1.map (fun p => p.2.size_bytes)).sum ≤ rem := by
  intro l
  induction l with
  | nil => intro rem; simp [greedy]
  | cons p ps ih =>
    intro rem
    unfold greedy
    split
    · rename_i hfit
      have h := ih (rem - p.2.size_bytes)
      cases hg : greedy ps (rem - p.2.size_bytes) with
      | mk c r =>
        rw [hg] at h
        dsimp only at h ⊢
        simp only [List.map_cons, List.sum_cons]
        omega
    · exact (ih rem).trans (le_refl _)

theorem insertDesc_perm (p : Nat × Section) (l : List (Nat × Section)) :
    (insertDesc p l).Perm (p :: l) := by
  induction l with
  | nil => simp [insertDesc]
  | cons q qs ih =>
    unfold insertDesc
    split
    · exact List.Perm.refl _
    · exact (ih.cons q).trans (List.Perm.swap p q qs)

theorem sortByPriorityDesc_perm (l : List (Nat × Section)) :
    (sortByPriorityDesc l).Perm l := by
  induction l with
  | nil => simp [sortByPriorityDesc]
  | cons p ps ih =>
    have : sortByPriorityDesc (p :: ps) = insertDesc p (sortByPriorityDesc ps) := rfl
    rw [this]
    exact (insertDesc_perm p _).trans (ih.cons p)

theorem withIdx_fst_ge : ∀ (l : List α) (i : Nat) (p : Nat × α),
    p ∈ withIdx i l → i ≤ p.1 := by
  intro l
  induction l with
  | nil => intro i p h; simp [withIdx] at h
  | cons a as ih =>
    intro i p h
    simp only [withIdx, List.mem_cons] at h
    rcases h with h | h
    · subst h; exact le_refl _
    · have := ih (i + 1) p h
      omega

theorem withIdx_fst_nodup : ∀ (l : List α) (i : Nat),
    ((withIdx i l).map Prod.fst).Nodup := by
  intro l
  induction l with
  | nil => intro i; simp [withIdx]
  | cons a as ih =>
    intro i
    simp only [withIdx, List.map_cons, List.nodup_cons]
    refine ⟨?_, ih (i + 1)⟩
    intro hmem
    simp only [List.mem_map] at hmem
    obtain ⟨p, hp, hfst⟩ := hmem
    have := withIdx_fst_ge as (i + 1) p hp
    omega

theorem withIdx_snd_mem : ∀ (l : List α) (i : Nat) (p : Nat × α),
    p ∈ withIdx i l → p.2 ∈ l := by
  intro l
  induction l with
  | nil => intro i p h; simp [withIdx] at h
  | cons a as ih =>
    intro i p h
    simp only [withIdx, List.mem_cons] at h
    rcases h with h | h
    · subst h; simp
    · exact List.mem_cons_of_mem a (ih (i + 1) p h)

theorem withIdx_length (l : List α) : ∀ (i : Nat), (withIdx i l).length = l.length := by
  induction l with
  | nil => intro i; rfl
  | cons a as ih => intro i; simp [withIdx, ih]


/-- Filtering a key-duplicate-free association list down to the keys of one
of its sublists recovers exactly that sublist (the `id()`-based reordering
step of `prioritize_sections`). -/
theorem filter_mem_keys_of_sublist :
    ∀ (l c : List (Nat × Section)), (l.map Prod.fst).Nodup → c.Sublist l →
      l.filter (fun p => (c.map Prod.fst).contains p.1) = c := by
  intro l
  induction l with
  | nil =>
    intro c hnd hsub
    simp [List.sublist_nil.mp hsub]
  | cons x l ih =>
    intro c hnd hsub
    simp only [List.map_cons, List.nodup_cons] at hnd
    obtain ⟨hx, hnd'⟩ := hnd
    cases hsub with
    | cons _ hsub' =>
      have hxc : x.1 ∉ c.map Prod.fst := by
        intro hmem
        exact hx ((hsub'.map Prod.fst).mem hmem)
      rw [List.filter_cons, if_neg (by simpa using hxc)]
      exact ih c hnd' hsub'
    | cons₂ _ hsub' =>
      rename_i c'
      rw [List.filter_cons, if_pos (by simp)]
      have hcongr : l.filter (fun p => ((x :: c').map Prod.fst).contains p.1) =
          l.filter (fun p => (c'.map Prod.fst).contains p.1) := by
        refine List.filter_congr ?_
        intro p hp
        have hne : p.1 ≠ x.1 := by
          intro he
          exact hx (he ▸ List.mem_map_of_mem Prod.fst hp)
        simp [hne]
      rw [hcongr, ih c' hnd' hsub']

theorem byteLen_joinSep (sep : List Char) :
    ∀ (xs : List (List Char)) (x : List Char),
      byteLen (joinSep sep (x :: xs)) =
        byteLen x + (xs.map byteLen).sum + byteLen sep * xs.length := by
  intro xs
  induction xs with
  | nil => intro x; simp [joinSep]
  | cons y ys ih =>
    intro x
    have : joinSep sep (x :: y :: ys) = x ++ sep ++ joinSep sep (y :: ys) := rfl
    rw [this, byteLen_append, byteLen_append, ih y]
    simp only [List.map_cons, List.sum_cons, List.length_cons, Nat.mul_succ]
    omega

/-- The selection bound of `prioritize_sections`: the first section plus the
greedily accepted sections fit `max_bytes` in content bytes; the output can
exceed it only by the uncounted `"\n\n"` separators. -/
theorem prioritize_sections_le (s0 : Section) (rest : List Section) (max_bytes : Nat)
    (hwf : ∀ s ∈ s0 :: rest, s.size_bytes = byteLen s.content)
    (hfit : ¬ s0.size_bytes > max_bytes) :
    byteLen (prioritize_sections (s0 :: rest) max_bytes) ≤
      max_bytes + 2 * rest.length := by
  have heq : prioritize_sections (s0 :: rest) max_bytes =
      (if s0.size_bytes > max_bytes then smart_truncate s0.content max_bytes
       else joinSep nlnl (s0.content ::
         ((withIdx 1 rest).filter
             (fun p => (selectedIdx rest (max_bytes - s0.size_bytes)).contains p.1)).map
           (fun p => p.2.content))) := rfl
  rw [heq, if_neg hfit]
  have hperm : (sortByPriorityDesc (withIdx 1 rest)).Perm (withIdx 1 rest) :=
    sortByPriorityDesc_perm _
  have hnd : ((sortByPriorityDesc (withIdx 1 rest)).map Prod.fst).Nodup :=
    ((hperm.map Prod.fst).nodup_iff).mpr (withIdx_fst_nodup rest 1)
  have hsub : ((greedy (sortByPriorityDesc (withIdx 1 rest)) (max_bytes - s0.size_bytes)).1).Sublist
      (sortByPriorityDesc (withIdx 1 rest)) := greedy_sublist _ _
  have hfs : (sortByPriorityDesc (withIdx 1 rest)).filter
        (fun p => (selectedIdx rest (max_bytes - s0.size_bytes)).contains p.1) =
      (greedy (sortByPriorityDesc (withIdx 1 rest)) (max_bytes - s0.size_bytes)).1 :=
    filter_mem_keys_of_sublist _ _ hnd hsub
  have hpf : ((withIdx 1 rest).filter
        (fun p => (selectedIdx rest (max_bytes - s0.size_bytes)).contains p.1)).Perm
      ((greedy (sortByPriorityDesc (withIdx 1 rest)) (max_bytes - s0.size_bytes)).1) := by
    rw [← hfs]
    exact (hperm.symm).filter _
  have hsum : ((((withIdx 1 rest).filter
        (fun p => (selectedIdx rest (max_bytes - s0.size_bytes)).contains p.1)).map
          (fun p => p.2.size_bytes)).sum ≤ max_bytes - s0.size_bytes) := by
    have := (hpf.map (fun p => p.2.size_bytes)).sum_eq
    rw [this]
    exact greedy_sum_le _ _
  have hwfmap : (((withIdx 1 rest).filter
        (fun p => (selectedIdx rest (max_bytes - s0.size_bytes)).contains p.1)).map
          (fun p => byteLen p.2.content)) =
      (((withIdx 1 rest).filter
        (fun p => (selectedIdx rest (max_bytes - s0.size_bytes)).contains p.1)).map
          (fun p => p.2.size_bytes)) := by
    refine List.map_congr_left ?_
    intro p hp
    have hmem : p.2 ∈ rest := withIdx_snd_mem rest 1 p (List.mem_of_mem_filter hp)
    exact (hwf p.2 (List.mem_cons_of_mem s0 hmem)).symm
  have hjoin := byteLen_joinSep nlnl
    (((withIdx 1 rest).filter
        (fun p => (selectedIdx rest (max_bytes - s0.size_bytes)).contains p.1)).map
      (fun p => p.2.content)) s0.content
  rw [hjoin]
  rw [List.map_map]
  have hcomp : (byteLen ∘ fun p => p.2.content) = (fun (p : Nat × Section) => byteLen p.2.content) := rfl
  rw [hcomp, hwfmap]
  have hlen : (((withIdx 1 rest).filter
        (fun p => (selectedIdx rest (max_bytes - s0.size_bytes)).contains p.1)).map
          (fun p => p.2.content)).length ≤ rest.length := by
    rw [List.length_map]
    calc ((withIdx 1 rest).filter _).length ≤ (withIdx 1 rest).length :=
          List.length_filter_le _ _
      _ = rest.length := withIdx_length rest 1
  have hs0 : s0.size_bytes = byteLen s0.content := hwf s0 (List.mem_cons_self s0 rest)
  have hnl : byteLen nlnl = 2 := byteLen_nlnl
  rw [List.length_map] at hlen
  rw [List.length_map]
  rw [hnl]
  omega

/-! ### Lemmas: section parsing reconstructs the document -/

theorem splitOnNl_ne_nil (s : List Char) : splitOnNl s ≠ [] := by
  cases s with
  | nil => simp [splitOnNl]
  | cons c rest =>
    unfold splitOnNl
    split
    · simp
    · split
      · simp
      · simp

theorem joinSep_group_cons (sep : List Char) (c : Char) (l : List Char) (ls : List (List Char)) :
    joinSep sep ((c :: l) :: ls) = c :: joinSep sep (l :: ls) := by
  cases ls with
  | nil => rfl
  | cons y ys => rfl

/-- Splitting on newlines and re-joining with a newline is the identity. -/
theorem joinSep_splitOnNl (s : List Char) : joinSep ['\n'] (splitOnNl s) = s := by
  induction s with
  | nil => rfl
  | cons c rest ih =>
    unfold splitOnNl
    by_cases hc : c = '\n'
    · rw [if_pos hc]
      obtain ⟨l, ls, hls⟩ : ∃ l ls, splitOnNl rest = l :: ls := by
        cases h : splitOnNl rest with
        | nil => exact absurd h (splitOnNl_ne_nil rest)
        | cons l ls => exact ⟨l, ls, rfl⟩
      rw [hls]
      rw [hls] at ih
      have : joinSep ['\n'] ([] :: l :: ls) = [] ++ ['\n'] ++ joinSep ['\n'] (l :: ls) := rfl
      rw [this, ih]
      simp [hc]
    · rw [if_neg hc]
      cases h : splitOnNl rest with
      | nil => exact absurd h (splitOnNl_ne_nil rest)
      | cons l ls =>
        rw [h] at ih
        rw [joinSep_group_cons, ih]

/-- Joining two non-empty groups of lines concatenates their joins around a
separator. -/
theorem joinSep_append (sep : List Char) :
    ∀ (g1 g2 : List (List Char)), g1 ≠ [] → g2 ≠ [] →
      joinSep sep (g1 ++ g2) = joinSep sep g1 ++ sep ++ joinSep sep g2 := by
  intro g1
  induction g1 with
  | nil => intro g2 h1 h2; exact absurd rfl h1
  | cons x xs ih =>
    intro g2 h1 h2
    cases xs with
    | nil =>
      cases g2 with
      | nil => exact absurd rfl h2
      | cons y ys => rfl
    | cons x' xs' =>
      have h3 : (x' :: xs') ++ g2 ≠ [] := by simp
      have : joinSep sep ((x :: x' :: xs') ++ g2) =
          x ++ sep ++ joinSep sep ((x' :: xs') ++ g2) := rfl
      rw [this, ih g2 (by simp) h2]
      have : joinSep sep (x :: x' :: xs') = x ++ sep ++ joinSep sep (x' :: xs') := rfl
      rw [this]
      simp [List.append_assoc]

/-- What the section loop appends: the contents of the new sections are a
non-empty block whose newline-join is the join of the pending and remaining
lines. -/
theorem extractLoop_contents :
    ∀ (lines : List (List Char)) (acc : List Section) (curLines : List (List Char))
      (curLevel : Nat) (curTitle : List Char), curLines ≠ [] →
      ∃ tail, (extractLoop lines acc curLines curLevel curTitle).map (fun s => s.content) =
          acc.map (fun s => s.content) ++ tail ∧ tail ≠ [] ∧
        joinSep ['\n'] tail = joinSep ['\n'] (curLines ++ lines) := by
  intro lines
  induction lines with
  | nil =>
    intro acc curLines curLevel curTitle hcur
    refine ⟨[joinSep ['\n'] curLines], ?_, by simp, by simp [joinSep]⟩
    unfold extractLoop
    rw [if_neg (by simpa using hcur)]
    simp [mkSection]
  | cons line rest ih =>
    intro acc curLines curLevel curTitle hcur
    unfold extractLoop
    cases hh : headingOf line with
    | some lt =>
      obtain ⟨lvl, title⟩ := lt
      rw [if_neg (by simpa using hcur)]
      obtain ⟨tail, h1, h2, h3⟩ := ih
        (acc ++ [mkSection curLevel curTitle (joinSep ['\n'] curLines)]) [line] lvl title
        (by simp)
      refine ⟨(mkSection curLevel curTitle (joinSep ['\n'] curLines)).content :: tail, ?_, by simp, ?_⟩
      · rw [h1]
        simp [mkSection]
      · cases htail : tail with
        | nil => exact absurd htail h2
        | cons t0 ts =>
          rw [htail] at h3
          have : joinSep ['\n'] ((mkSection curLevel curTitle (joinSep ['\n'] curLines)).content :: t0 :: ts) =
              (mkSection curLevel curTitle (joinSep ['\n'] curLines)).content ++ ['\n'] ++ joinSep ['\n'] (t0 :: ts) := rfl
          rw [this, h3]
          have hmk : (mkSection curLevel curTitle (joinSep ['\n'] curLines)).content =
              joinSep ['\n'] curLines := rfl
          rw [hmk]
          simp only [List.singleton_append]
          rw [← joinSep_append ['\n'] curLines (line :: rest) hcur (by simp)]
    | none =>
      obtain ⟨tail, h1, h2, h3⟩ := ih acc (curLines ++ [line]) curLevel curTitle (by simp)
      refine ⟨tail, h1, h2, ?_⟩
      rw [h3, List.append_assoc]
      simp

/-- When no line is a heading, the loop produces exactly one section
carrying the pending level and title and all the lines. -/
theorem extractLoop_no_heading :
    ∀ (lines : List (List Char)) (acc : List Section) (curLines : List (List Char))
      (curLevel : Nat) (curTitle : List Char),
      (∀ l ∈ lines, headingOf l = none) → curLines ≠ [] →
      extractLoop lines acc curLines curLevel curTitle =
        acc ++ [mkSection curLevel curTitle (joinSep ['\n'] (curLines ++ lines))] := by
  intro lines
  induction lines with
  | nil =>
    intro acc curLines curLevel curTitle _ hcur
    unfold extractLoop
    rw [if_neg (by simpa using hcur)]
    simp
  | cons line rest ih =>
    intro acc curLines curLevel curTitle hnone hcur
    unfold extractLoop
    rw [hnone line (by simp)]
    rw [ih acc (curLines ++ [line]) curLevel curTitle
      (fun l hl => hnone l (List.mem_cons_of_mem line hl)) (by simp)]
    simp [List.append_assoc]

theorem extractLoop_start (l : List Char) (ls : List (List Char)) :
    ∃ lvl title, extractLoop (l :: ls) [] [] 0 [] = extractLoop ls [] [l] lvl title := by
  cases hh : headingOf l with
  | some lt =>
    obtain ⟨lvl, title⟩ := lt
    refine ⟨lvl, title, ?_⟩
    conv_lhs => rw [extractLoop.eq_def]
    simp [hh]
  | none =>
    refine ⟨0, [], ?_⟩
    conv_lhs => rw [extractLoop.eq_def]
    simp [hh]

/-- C3 (corrected): plain concatenation of the parsed sections' contents
does not reproduce the document (see the counterexample) — the newline
consumed between sections by the line split must be re-inserted.  Joining
the contents with `"\n"` reconstructs every document that is non-empty
after stripping (whitespace-only documents parse to no sections at all). -/
theorem extract_sections_join (md : List Char) (h : (pyStrip md).isEmpty = false) :
    joinSep ['\n'] ((extract_sections md).map (fun s => s.content)) = md := by
  unfold extract_sections
  rw [if_neg (by simp [h])]
  obtain ⟨l, ls, hls⟩ : ∃ l ls, splitOnNl md = l :: ls := by
    cases hsp : splitOnNl md with
    | nil => exact absurd hsp (splitOnNl_ne_nil md)
    | cons l ls => exact ⟨l, ls, rfl⟩
  rw [hls]
  obtain ⟨lvl, title, hstart⟩ := extractLoop_start l ls
  rw [hstart]
  obtain ⟨tail, h1, h2, h3⟩ := extractLoop_contents ls [] [l] lvl title (by simp)
  split
  · rename_i hsec
    rw [hsec] at h1
    simp only [List.map_nil, List.nil_append] at h1
    exact absurd h1.symm h2
  · rename_i s ss hsec
    rw [hsec] at h1
    simp only [List.map_nil, List.nil_append] at h1
    rw [h1, h3]
    simp only [List.singleton_append]
    rw [← hls]
    exact joinSep_splitOnNl md

/-- C9 (corrected): a document with no heading line parses to exactly one
section with level 0, empty title and the full document as content — but
its priority is 30 (the default score for an empty title), not 100: the
explicit priority-100 fallback in the source is unreachable because the
line loop always accumulates at least one section.  Requires the document
to be non-empty after stripping; whitespace-only input yields no sections. -/
theorem extract_sections_of_no_heading (md : List Char)
    (h : (pyStrip md).isEmpty = false)
    (hnone : ∀ l ∈ splitOnNl md, headingOf l = none) :
    extract_sections md = [⟨0, [], md, 30, byteLen md⟩] := by
  unfold extract_sections
  rw [if_neg (by simp [h])]
  obtain ⟨l, ls, hls⟩ : ∃ l ls, splitOnNl md = l :: ls := by
    cases hsp : splitOnNl md with
    | nil => exact absurd hsp (splitOnNl_ne_nil md)
    | cons l ls => exact ⟨l, ls, rfl⟩
  rw [hls]
  have hl : headingOf l = none := hnone l (by rw [hls]; simp)
  have hstep : extractLoop (l :: ls) [] [] 0 [] = extractLoop ls [] [l] 0 [] := by
    conv_lhs => rw [extractLoop.eq_def]
    simp [hl]
  rw [hstep]
  rw [extractLoop_no_heading ls [] [l] 0 []
    (fun l' hl' => hnone l' (by rw [hls]; exact List.mem_cons_of_mem l hl')) (by simp)]
  have hjoin : joinSep ['\n'] ([l] ++ ls) = md := by
    simp only [List.singleton_append]
    rw [← hls]
    exact joinSep_splitOnNl md
  rw [hjoin]
  rfl

/-! ### Lemmas: the continuation store -/

theorem lookupTok_cons (q : Nat × ContinuationRecord) (qs : Store) (t : Nat) :
    lookupTok (q :: qs) t = if q.1 = t then some q.2 else lookupTok qs t := rfl

theorem lookupTok_eraseTok_self (st : Store) (tok : Nat) :
    lookupTok (eraseTok st tok) tok = none := by
  induction st with
  | nil => rfl
  | cons p rest ih =>
    unfold eraseTok at ih ⊢
    rw [List.filter_cons]
    split
    · rename_i hkeep
      simp only [bne_iff_ne, ne_eq] at hkeep
      rw [lookupTok_cons, if_neg hkeep]
      exact ih
    · exact ih

theorem lookupTok_eraseTok_ne (st : Store) (tok t : Nat) (h : t ≠ tok) :
    lookupTok (eraseTok st tok) t = lookupTok st t := by
  induction st with
  | nil => rfl
  | cons p rest ih =>
    unfold eraseTok at ih ⊢
    rw [List.filter_cons]
    split
    · rw [lookupTok_cons, lookupTok_cons]
      by_cases he : p.1 = t
      · rw [if_pos he, if_pos he]
      · rw [if_neg he, if_neg he]
        exact ih
    · rename_i hdrop
      simp only [bne_iff_ne, ne_eq, Decidable.not_not] at hdrop
      rw [lookupTok_cons, if_neg (by omega)]
      exact ih

theorem lookupTok_filter_none (st : Store) (f : Nat × ContinuationRecord → Bool) (t : Nat)
    (h : lookupTok st t = none) : lookupTok (st.filter f) t = none := by
  induction st with
  | nil => rfl
  | cons p rest ih =>
    rw [lookupTok_cons] at h
    split at h
    · exact absurd h (by simp)
    · rename_i hne
      rw [List.filter_cons]
      split
      · rw [lookupTok_cons, if_neg hne]
        exact ih h
      · exact ih h

theorem lookupTok_append_fresh (st : Store) (t : Nat) (r : ContinuationRecord)
    (h : lookupTok st t = none) : lookupTok (st ++ [(t, r)]) t = some r := by
  induction st with
  | nil => simp [lookupTok]
  | cons p rest ih =>
    rw [lookupTok_cons] at h
    split at h
    · exact absurd h (by simp)
    · rename_i hne
      have hc : (p :: rest) ++ [(t, r)] = p :: (rest ++ [(t, r)]) := rfl
      rw [hc, lookupTok_cons, if_neg hne]
      exact ih h

theorem lookupTok_cleanup_none (now ttl : Int) (st : Store) (t : Nat)
    (h : lookupTok st t = none) : lookupTok (cleanup_expired now ttl st) t = none :=
  lookupTok_filter_none st _ t h

/-- Looking up a token that was just consumed fails, for any flag values:
whenever `get_next_chunk` returns a response, the input token is gone from
the resulting table. -/
theorem get_next_chunk_consumes_token {τ : Type} (enc : List Char → List τ)
    (dec : List τ → List Char) (rf wf : Bool) (st0 : Store) (token chunk_size : Nat)
    (now ttl : Int) (fresh : Nat) (resp : ChunkResponse) (st' : Store)
    (h : get_next_chunk enc dec rf wf st0 token chunk_size now ttl fresh = (some resp, st')) :
    lookupTok st' token = none := by
  unfold get_next_chunk at h
  split at h
  · exact absurd h (by simp)
  · split at h
    · exact absurd h (by simp)
    · rename_i r0 hlook
      split at h
      · exact absurd h (by simp)
      · split at h
        · simp only [Prod.mk.injEq] at h
          rw [← h.2]
          exact lookupTok_eraseTok_self _ _
        · split at h
          · exact absurd h (by simp)
          · simp only [Prod.mk.injEq] at h
            rw [← h.2]
            exact lookupTok_eraseTok_self _ _

/-- A token absent from the table yields "not found" and leaves only the
cleanup behind. -/
theorem get_next_chunk_absent {τ : Type} (enc : List Char → List τ)
    (dec : List τ → List Char) (rf wf : Bool) (st0 : Store) (token chunk_size : Nat)
    (now ttl : Int) (fresh : Nat) (h : lookupTok st0 token = none) :
    get_next_chunk enc dec rf wf st0 token chunk_size now ttl fresh =
      (none, cleanup_expired now ttl st0) := by
  unfold get_next_chunk
  split
  · rfl
  · rw [lookupTok_cleanup_none now ttl st0 token h]

theorem lookupTok_none_of_not_mem (st : Store) (t : Nat)
    (h : t ∉ st.map Prod.fst) : lookupTok st t = none := by
  induction st with
  | nil => rfl
  | cons p rest ih =>
    simp only [List.map_cons, List.mem_cons] at h
    push_neg at h
    rw [lookupTok_cons, if_neg (by omega)]
    exact ih h.2

/-- On a table with unique keys, an expired record is gone after the sweep. -/
theorem lookupTok_cleanup_expired (now ttl : Int) (st : Store) (t : Nat)
    (r : ContinuationRecord) (hnd : (st.map Prod.fst).Nodup)
    (h : lookupTok st t = some r) (hexp : r.timestamp < now - ttl) :
    lookupTok (cleanup_expired now ttl st) t = none := by
  induction st with
  | nil => simp [lookupTok] at h
  | cons p rest ih =>
    simp only [List.map_cons, List.nodup_cons] at hnd
    obtain ⟨hp, hnd'⟩ := hnd
    rw [lookupTok_cons] at h
    unfold cleanup_expired
    rw [List.filter_cons]
    by_cases he : p.1 = t
    · rw [if_pos he] at h
      simp only [Option.some.injEq] at h
      split
      · rename_i hkeep
        simp only [Bool.not_eq_eq_eq_not, Bool.not_true, decide_eq_false_iff_not] at hkeep
        rw [← h] at hexp
        exact absurd hexp hkeep
      · refine lookupTok_filter_none rest _ t (lookupTok_none_of_not_mem rest t ?_)
        rw [← he]
        exact hp
    · rw [if_neg he] at h
      split
      · rw [lookupTok_cons, if_neg he]
        exact ih hnd' h
      · exact ih hnd' h

/-- C5 (confirmed): the record lifecycle of a successful retrieval — the
consumed token's row is gone from the resulting table; a terminal retrieval
(`has_more = false`) leaves only the sweep-plus-delete behind and creates
nothing; a non-terminal retrieval leaves exactly one successor row, stored
under the freshly generated token (assumed absent, as uuid4 collision
resistance guarantees) and carrying the incremented chunk number.  The old
row and the successor never both remain. -/
theorem get_next_chunk_record_lifecycle {τ : Type} (enc : List Char → List τ)
    (dec : List τ → List Char) (st0 : Store) (token chunk_size : Nat)
    (now ttl : Int) (fresh : Nat) (resp : ChunkResponse) (st' : Store)
    (hf : lookupTok st0 fresh = none)
    (h : get_next_chunk enc dec false false st0 token chunk_size now ttl fresh =
      (some resp, st')) :
    lookupTok st' token = none ∧
    (resp.has_more = false → st' = eraseTok (cleanup_expired now ttl st0) token) ∧
    (resp.has_more = true → ∃ r0, lookupTok (cleanup_expired now ttl st0) token = some r0 ∧
      resp.continuation_token = some fresh ∧
      st' = eraseTok (cleanup_expired now ttl st0 ++
        [(fresh, ⟨dec ((enc r0.remaining_content).drop chunk_size),
          some (r0.chunk_number.getD 1 + 1), now⟩)]) token ∧
      lookupTok st' fresh = some ⟨dec ((enc r0.remaining_content).drop chunk_size),
        some (r0.chunk_number.getD 1 + 1), now⟩) := by
  have hfclean : lookupTok (cleanup_expired now ttl st0) fresh = none :=
    lookupTok_cleanup_none now ttl st0 fresh hf
  unfold get_next_chunk at h
  simp only [Bool.false_eq_true, if_false] at h
  split at h
  · exact absurd h (by simp)
  · rename_i r0 hlook
    have htokne : token ≠ fresh := by
      intro he
      rw [he, hfclean] at hlook
      exact absurd hlook (by simp)
    split at h
    · exact absurd h (by simp)
    · rename_i hnexp
      split at h
      · -- final chunk
        rename_i hfits
        rw [Prod.mk.injEq] at h
        obtain ⟨hresp, hst⟩ := h
        simp only [Option.some.injEq] at hresp
        subst hresp
        subst hst
        refine ⟨lookupTok_eraseTok_self _ _, fun _ => rfl, fun hmore => ?_⟩
        exact absurd hmore (by simp)
      · -- successor chunk
        rename_i hsplit
        rw [Prod.mk.injEq] at h
        obtain ⟨hresp, hst⟩ := h
        simp only [Option.some.injEq] at hresp
        subst hresp
        subst hst
        refine ⟨lookupTok_eraseTok_self _ _, fun hf' => absurd hf' (by simp), fun _ => ?_⟩
        refine ⟨r0, hlook, rfl, rfl, ?_⟩
        rw [lookupTok_eraseTok_ne _ token fresh (fun he => htokne he.symm)]
        exact lookupTok_append_fresh _ fresh _ hfclean

/-- An expired record: retrieval fails and the sweep removes the row, for
any flag values and tokenizer. -/
theorem get_next_chunk_expired {τ : Type} (enc : List Char → List τ)
    (dec : List τ → List Char) (rf wf : Bool) (st0 : Store) (token chunk_size : Nat)
    (r : ContinuationRecord) (now ttl : Int) (fresh : Nat)
    (hnd : (st0.map Prod.fst).Nodup)
    (hr : lookupTok st0 token = some r) (hexp : now - r.timestamp > ttl) :
    get_next_chunk enc dec rf wf st0 token chunk_size now ttl fresh =
      (none, cleanup_expired now ttl st0) ∧
    lookupTok (cleanup_expired now ttl st0) token = none := by
  have hgone : lookupTok (cleanup_expired now ttl st0) token = none :=
    lookupTok_cleanup_expired now ttl st0 token r hnd hr (by omega)
  refine ⟨?_, hgone⟩
  unfold get_next_chunk
  split
  · rfl
  · rw [hgone]

/-- A write fault while storing the successor during retrieval is caught by
the catch-all handler of `get_next_chunk`: the caller sees "not found" and
the old row survives the operation. -/
theorem get_next_chunk_write_fault {τ : Type} (enc : List Char → List τ)
    (dec : List τ → List Char) (st0 : Store) (token chunk_size : Nat)
    (r0 : ContinuationRecord) (now ttl : Int) (fresh : Nat)
    (hlook : lookupTok (cleanup_expired now ttl st0) token = some r0)
    (hnexp : ¬ now - r0.timestamp > ttl)
    (hsplit : chunk_size < (enc r0.remaining_content).length) :
    get_next_chunk enc dec false true st0 token chunk_size now ttl fresh =
      (none, cleanup_expired now ttl st0) := by
  unfold get_next_chunk
  simp only [Bool.false_eq_true, if_false]
  split
  · rename_i hnone
    rw [hlook] at hnone
  · rename_i r0' hlook'
    rw [hlook] at hlook'
    simp only [Option.some.injEq] at hlook'
    subst hlook'
    rw [if_neg hnexp, if_neg (by omega)]
    rfl

/-- A read fault is reported as "not found". -/
theorem get_next_chunk_read_fault {τ : Type} (enc : List Char → List τ)
    (dec : List τ → List Char) (wf : Bool) (st0 : Store) (token chunk_size : Nat)
    (now ttl : Int) (fresh : Nat) :
    get_next_chunk enc dec true wf st0 token chunk_size now ttl fresh =
      (none, cleanup_expired now ttl st0) := by
  unfold get_next_chunk
  rfl

/-- A write fault while creating the first continuation propagates out of
`chunk_and_serialize_response`. -/
theorem chunk_and_serialize_write_fault {τ : Type} (enc : List Char → List τ)
    (dec : List τ → List Char) (st : Store) (content : List Char) (chunk_size : Nat)
    (fresh : Nat) (now : Int) (hcs : chunk_size ≠ 0) (hne : content.isEmpty = false)
    (hbig : chunk_size < (enc content).length) :
    chunk_and_serialize_response enc dec true st content chunk_size fresh now =
      Except.error () := by
  unfold chunk_and_serialize_response
  rw [if_neg (by simp [hne, hcs]), if_neg (by omega)]
  rfl

/-! ### Lemmas: chunk reassembly (the Chunk Sequencer delivers everything) -/

theorem cleanup_keep_singleton (now ttl : Int) (httl : 0 ≤ ttl) (tok : Nat)
    (rc : List Char) (cn : Option Nat) :
    cleanup_expired now ttl [(tok, ⟨rc, cn, now⟩)] = [(tok, ⟨rc, cn, now⟩)] := by
  unfold cleanup_expired
  rw [List.filter_cons, if_pos (by simp; omega)]
  rfl

theorem eraseTok_single_self (tok : Nat) (r : ContinuationRecord) :
    eraseTok [(tok, r)] tok = [] := by
  simp [eraseTok]

theorem eraseTok_pair (tok fr : Nat) (r1 r2 : ContinuationRecord) (h : fr ≠ tok) :
    eraseTok ([(tok, r1)] ++ [(fr, r2)]) tok = [(fr, r2)] := by
  simp [eraseTok, h]

/-- Retrieval from a one-row table when the remainder fits the chunk budget:
the final chunk is returned whole and the table is emptied. -/
theorem get_next_chunk_single_final {τ : Type} (enc : List Char → List τ)
    (dec : List τ → List Char) (tok cs : Nat) (now ttl : Int) (cn : Option Nat)
    (l : List τ) (fresh : Nat) (hed : ∀ l, enc (dec l) = l) (httl : 0 ≤ ttl)
    (hfit : l.length ≤ cs) :
    get_next_chunk enc dec false false [(tok, ⟨dec l, cn, now⟩)] tok cs now ttl fresh =
      (some ⟨dec l, cn.getD 1 + 1, false, none, l.length, 0⟩, []) := by
  unfold get_next_chunk
  simp only [Bool.false_eq_true, if_false]
  rw [cleanup_keep_singleton now ttl httl tok (dec l) cn]
  split
  · rename_i hnone
    rw [lookupTok_cons, if_pos rfl] at hnone
    exact absurd hnone (by simp)
  · rename_i r0 hr0
    rw [lookupTok_cons, if_pos rfl] at hr0
    simp only [Option.some.injEq] at hr0
    subst hr0
    dsimp only
    rw [hed l, if_neg (by omega), if_pos hfit, eraseTok_single_self]

/-- Retrieval from a one-row table when the remainder exceeds the chunk
budget: the first `cs` tokens are delivered and the remainder is re-stored
under the fresh token. -/
theorem get_next_chunk_single_split {τ : Type} (enc : List Char → List τ)
    (dec : List τ → List Char) (tok cs : Nat) (now ttl : Int) (cn : Option Nat)
    (l : List τ) (fresh : Nat) (hed : ∀ l, enc (dec l) = l) (httl : 0 ≤ ttl)
    (hbig : cs < l.length) (hfr : fresh ≠ tok) :
    get_next_chunk enc dec false false [(tok, ⟨dec l, cn, now⟩)] tok cs now ttl fresh =
      (some ⟨dec (l.take cs), cn.getD 1 + 1, true, some fresh,
          (enc (dec (l.take cs))).length, l.length - cs⟩,
        [(fresh, ⟨dec (l.drop cs), some (cn.getD 1 + 1), now⟩)]) := by
  unfold get_next_chunk
  simp only [Bool.false_eq_true, if_false]
  rw [cleanup_keep_singleton now ttl httl tok (dec l) cn]
  split
  · rename_i hnone
    rw [lookupTok_cons, if_pos rfl] at hnone
    exact absurd hnone (by simp)
  · rename_i r0 hr0
    rw [lookupTok_cons, if_pos rfl] at hr0
    simp only [Option.some.injEq] at hr0
    subst hr0
    dsimp only
    rw [hed l, if_neg (by omega), if_neg (by omega)]
    rw [eraseTok_pair tok fresh _ _ hfr]

/-- One-step unfolding of the retrieval loop. -/
theorem drainChunks_succ {τ : Type} (enc : List Char → List τ) (dec : List τ → List Char)
    (fuel : Nat) (st : Store) (tok cs : Nat) (now ttl : Int) :
    drainChunks enc dec (fuel + 1) st tok cs now ttl =
      match get_next_chunk enc dec false false st tok cs now ttl (freshTok st) with
      | (none, _) => none
      | (some resp, st') =>
        if resp.has_more then
          match resp.continuation_token with
          | some t' => (drainChunks enc dec fuel st' t' cs now ttl).map
              (fun r => resp.content ++ r)
          | none => none
        else some resp.content := rfl

/-- Draining a single continuation row delivers exactly the stored
remainder, given a reversible tokenizer. -/
theorem drainChunks_single {τ : Type} (enc : List Char → List τ) (dec : List τ → List Char)
    (hed : ∀ l, enc (dec l) = l) (hhom : ∀ l1 l2, dec (l1 ++ l2) = dec l1 ++ dec l2)
    (cs : Nat) (hcs : 1 ≤ cs) (now ttl : Int) (httl : 0 ≤ ttl) :
    ∀ (fuel : Nat) (l : List τ) (tok : Nat) (cn : Option Nat), l.length ≤ fuel →
      drainChunks enc dec (fuel + 1) [(tok, ⟨dec l, cn, now⟩)] tok cs now ttl =
        some (dec l) := by
  intro fuel
  induction fuel with
  | zero =>
    intro l tok cn hl
    have hfit : l.length ≤ cs := by omega
    rw [drainChunks_succ,
      get_next_chunk_single_final enc dec tok cs now ttl cn l _ hed httl hfit]
    rfl
  | succ n ih =>
    intro l tok cn hl
    by_cases hfit : l.length ≤ cs
    · rw [drainChunks_succ,
        get_next_chunk_single_final enc dec tok cs now ttl cn l _ hed httl hfit]
      rfl
    · have hbig : cs < l.length := by omega
      have hfr : freshTok [(tok, (⟨dec l, cn, now⟩ : ContinuationRecord))] = tok + 1 := by
        simp [freshTok, maxKey]
      rw [drainChunks_succ, hfr,
        get_next_chunk_single_split enc dec tok cs now ttl cn l (tok + 1) hed httl hbig
          (by omega)]
      have hdrop : (l.drop cs).length ≤ n := by
        simp only [List.length_drop]
        omega
      have hrec := ih (l.drop cs) (tok + 1) (some (cn.getD 1 + 1)) hdrop
      dsimp only
      rw [hrec]
      simp only [if_true, Option.map_some']
      rw [← hhom, List.take_append_drop]


/-- One-step unfolding of `prioritize_sections` on a non-empty list. -/
theorem prioritize_sections_cons (s0 : Section) (rest : List Section) (max_bytes : Nat) :
    prioritize_sections (s0 :: rest) max_bytes =
      if s0.size_bytes > max_bytes then smart_truncate s0.content max_bytes
      else joinSep nlnl (s0.content ::
        ((withIdx 1 rest).filter
            (fun p => (selectedIdx rest (max_bytes - s0.size_bytes)).contains p.1)).map
          (fun p => p.2.content)) := rfl

/-! ### The claims -/

/-- C1 (corrected): the output of `prioritize_sections` is NOT always within
`maxBytes` — the blank-line separators of the greedy path are never charged
against the budget.  What holds (for well-formed sections, i.e. `size_bytes`
equal to the UTF-8 length of `content`) is the bound
`maxBytes + 2·(number of sections − 1)`, and the plain `maxBytes` bound on
the truncation path taken when the first section alone exceeds the limit. -/
theorem claim1_budget_corrected (sections : List Section) (max_bytes : Nat)
    (hwf : ∀ s ∈ sections, s.size_bytes = byteLen s.content) :
    byteLen (prioritize_sections sections max_bytes) ≤
      max_bytes + 2 * (sections.length - 1) ∧
    ∀ s0 rest, sections = s0 :: rest → max_bytes < s0.size_bytes →
      byteLen (prioritize_sections sections max_bytes) ≤ max_bytes := by
  constructor
  · cases sections with
    | nil => simp [prioritize_sections, byteLen]
    | cons s0 rest =>
      by_cases hgt : s0.size_bytes > max_bytes
      · rw [prioritize_sections_cons, if_pos hgt]
        have := smart_truncate_le s0.content max_bytes
        omega
      · have h := prioritize_sections_le s0 rest max_bytes hwf hgt
        simp only [List.length_cons]
        omega
  · intro s0 rest heq hgt
    subst heq
    rw [prioritize_sections_cons, if_pos hgt]
    exact smart_truncate_le s0.content max_bytes

/-- C1 counterexample: two well-formed one-byte sections under a two-byte
budget; the claimed bound `byteLen output ≤ maxBytes` fails because the
joined output `"a\n\nb"` has four bytes.  The first section fits the budget,
so this is the greedy path the claim covers. -/
theorem claim1_counterexample :
    byteLen (prioritize_sections
      [⟨0, [], ['a'], 30, 1⟩, ⟨0, [], ['b'], 30, 1⟩] 2) = 4 ∧
    2 < 4 ∧ byteLen ['a'] = 1 ∧ byteLen ['b'] = 1 ∧
    ¬ (⟨0, [], ['a'], 30, 1⟩ : Section).size_bytes > 2 := by decide

/-- Witness for C1 at a concrete one-section input. -/
theorem claim1_budget_witness :
    byteLen (prioritize_sections [⟨1, ("T").data, ("abc").data, 30, 3⟩] 10) ≤
      10 + 2 * (([⟨1, ("T").data, ("abc").data, 30, 3⟩] : List Section).length - 1) ∧
    ∀ s0 rest, ([⟨1, ("T").data, ("abc").data, 30, 3⟩] : List Section) = s0 :: rest →
      10 < s0.size_bytes →
      byteLen (prioritize_sections [⟨1, ("T").data, ("abc").data, 30, 3⟩] 10) ≤ 10 :=
  claim1_budget_corrected [⟨1, ("T").data, ("abc").data, 30, 3⟩] 10
    (by intro s hs; rw [List.mem_singleton] at hs; subst hs; decide)

/-- C2 (confirmed): delivering content through `chunk_and_serialize_response`
and then draining the continuation with successive `get_next_chunk` calls
reassembles the content exactly, for every chunk size ≥ 1.  The tokenizer is
the spec's section-6 oracle: deterministic and reversible (`hde`, `hed`)
and concatenation-compatible (`hhom`). -/
theorem claim2_chunk_completeness {τ : Type} (enc : List Char → List τ)
    (dec : List τ → List Char)
    (hde : ∀ s, dec (enc s) = s) (hed : ∀ l, enc (dec l) = l)
    (hhom : ∀ l1 l2, dec (l1 ++ l2) = dec l1 ++ dec l2)
    (content : List Char) (cs : Nat) (now ttl : Int) (fresh : Nat)
    (hcs : 1 ≤ cs) (hbig : cs < (enc content).length)
    (hne : content.isEmpty = false) (httl : 0 ≤ ttl) :
    chunk_and_serialize_response enc dec false [] content cs fresh now =
      Except.ok ((dec ((enc content).take cs),
        ChunkingInfo.chunked 1 true fresh ((enc content).take cs).length
          ((enc content).drop cs).length),
        [(fresh, ⟨dec ((enc content).drop cs), some 1, now⟩)]) ∧
    drainChunks enc dec (enc content).length
        [(fresh, ⟨dec ((enc content).drop cs), some 1, now⟩)] fresh cs now ttl =
      some (dec ((enc content).drop cs)) ∧
    dec ((enc content).take cs) ++ dec ((enc content).drop cs) = content := by
  refine ⟨?_, ?_, ?_⟩
  · unfold chunk_and_serialize_response
    rw [if_neg (by simp [hne]; omega), if_neg (by omega)]
    rfl
  · have hlen : (enc content).length = ((enc content).length - 1) + 1 := by omega
    rw [hlen]
    exact drainChunks_single enc dec hed hhom cs hcs now ttl httl
      ((enc content).length - 1) ((enc content).drop cs) fresh (some 1)
      (by simp only [List.length_drop]; omega)
  · rw [← hhom, List.take_append_drop]
    exact hde content

/-- Witness for C2: the identity tokenizer on `"abc"` with chunk size 1. -/
theorem claim2_witness :
    chunk_and_serialize_response (fun s : List Char => s) (fun l : List Char => l)
        false [] (("abc").data) 1 1 0 =
      Except.ok ((((("abc").data).take 1),
        ChunkingInfo.chunked 1 true 1 ((("abc").data).take 1).length
          ((("abc").data).drop 1).length),
        [(1, ⟨(("abc").data).drop 1, some 1, 0⟩)]) ∧
    drainChunks (fun s : List Char => s) (fun l : List Char => l) (("abc").data).length
        [(1, ⟨(("abc").data).drop 1, some 1, 0⟩)] 1 1 0 0 =
      some ((("abc").data).drop 1) ∧
    (("abc").data).take 1 ++ (("abc").data).drop 1 = ("abc").data :=
  claim2_chunk_completeness (fun s => s) (fun l => l)
    (fun _ => rfl) (fun _ => rfl) (fun _ _ => rfl)
    (("abc").data) 1 0 0 1 (by decide) (by decide) (by decide) (by decide)

/-- C3 counterexample: for `"a\n# b"` the parser yields sections `"a"` and
`"# b"`; plain concatenation of the contents gives `"a# b"`, which is not
the source document — the newline consumed by the line split is lost. -/
theorem claim3_counterexample :
    ((extract_sections (("a\n# b").data)).map (fun s => s.content)).foldr (· ++ ·) [] =
      ("a# b").data ∧
    ("a# b").data ≠ ("a\n# b").data := by decide

/-- Witness for C3 at a concrete two-section document. -/
theorem claim3_witness :
    (pyStrip (("x\n# y z").data)).isEmpty = false ∧
    joinSep ['\n'] ((extract_sections (("x\n# y z").data)).map (fun s => s.content)) =
      ("x\n# y z").data :=
  ⟨by decide, extract_sections_join (("x\n# y z").data) (by decide)⟩

/-- C4 (confirmed): `smart_truncate` never yields a string that fails UTF-8
re-decoding (its output is a sequence of scalar values whose encoding
round-trips), and the backoff loop always truncates at the nearest valid
boundary: a successful search returns a decodable byte-prefix maximal among
the lengths up to the limit. -/
theorem claim4_utf8_safety (text : List Char) (mb : Nat) (h : 1 ≤ mb) :
    utf8DecodeBytes (utf8Encode (smart_truncate text mb)) =
      some (smart_truncate text mb) ∧
    ∀ t cs, findDecodable (utf8Encode text) mb = some (t, cs) →
      utf8DecodeBytes ((utf8Encode text).take t) = some cs ∧
      ∀ u, t < u → u ≤ mb → utf8DecodeBytes ((utf8Encode text).take u) = none := by
  refine ⟨utf8DecodeBytes_encode _, fun t cs hfd => ?_⟩
  obtain ⟨h1, h2, h3, h4⟩ := findDecodable_spec hfd
  exact ⟨h3, h4⟩

/-- Witness for C4: a byte limit of 2 falls inside the two-byte code point
of `"aé"`; the backoff stops at the boundary after `'a'`. -/
theorem claim4_witness :
    (1 ≤ 2 ∧
      utf8DecodeBytes (utf8Encode (smart_truncate (("aé").data) 2)) =
        some (smart_truncate (("aé").data) 2)) ∧
    utf8DecodeBytes ((utf8Encode (("aé").data)).take 1) = some ['a'] ∧
    utf8DecodeBytes ((utf8Encode (("aé").data)).take 2) = none :=
  ⟨⟨by decide, (claim4_utf8_safety (("aé").data) 2 (by decide)).1⟩,
   ((claim4_utf8_safety (("aé").data) 2 (by decide)).2 1 ['a'] (by decide)).1,
   ((claim4_utf8_safety (("aé").data) 2 (by decide)).2 1 ['a'] (by decide)).2 2
     (by decide) (by decide)⟩

/-- Witness for C5: consuming a final chunk deletes the only row. -/
theorem claim5_witness :
    lookupTok ([] : Store) 3 = none ∧
    ((⟨("ab").data, 2, false, none, 2, 0⟩ : ChunkResponse).has_more = false →
      ([] : Store) = eraseTok (cleanup_expired 0 5 [(3, ⟨("ab").data, some 1, 0⟩)]) 3) ∧
    ((⟨("ab").data, 2, false, none, 2, 0⟩ : ChunkResponse).has_more = true →
      ∃ r0, lookupTok (cleanup_expired 0 5 [(3, ⟨("ab").data, some 1, 0⟩)]) 3 = some r0 ∧
        (⟨("ab").data, 2, false, none, 2, 0⟩ : ChunkResponse).continuation_token = some 7 ∧
        ([] : Store) = eraseTok (cleanup_expired 0 5 [(3, ⟨("ab").data, some 1, 0⟩)] ++
          [(7, ⟨(fun l : List Char => l) (((fun s : List Char => s) r0.remaining_content).drop 10),
            some (r0.chunk_number.getD 1 + 1), 0⟩)]) 3 ∧
        lookupTok ([] : Store) 7 =
          some ⟨(fun l : List Char => l) (((fun s : List Char => s) r0.remaining_content).drop 10),
            some (r0.chunk_number.getD 1 + 1), 0⟩) :=
  get_next_chunk_record_lifecycle (fun s : List Char => s) (fun l : List Char => l)
    [(3, ⟨("ab").data, some 1, 0⟩)] 3 10 0 5 7
    ⟨("ab").data, 2, false, none, 2, 0⟩ [] (by decide) (by decide)

/-- C6 (confirmed): a terminally consumed token always yields "not found" on
any subsequent retrieval, and an expired record yields "not found" while the
sweep removes it from the store — both fail identically through the same
`none` result. -/
theorem claim6_exhaustion_expiry :
    (∀ {τ τ' : Type} (enc : List Char → List τ) (dec : List τ → List Char)
      (enc' : List Char → List τ') (dec' : List τ' → List Char)
      (st0 : Store) (token cs : Nat) (now ttl : Int) (fresh : Nat)
      (resp : ChunkResponse) (st' : Store) (rf' wf' : Bool) (cs' : Nat)
      (now' ttl' : Int) (fresh' : Nat),
      get_next_chunk enc dec false false st0 token cs now ttl fresh = (some resp, st') →
      resp.has_more = false →
      (get_next_chunk enc' dec' rf' wf' st' token cs' now' ttl' fresh').1 = none) ∧
    (∀ {τ : Type} (enc : List Char → List τ) (dec : List τ → List Char) (rf wf : Bool)
      (st0 : Store) (token : Nat) (r : ContinuationRecord) (cs : Nat) (now ttl : Int)
      (fresh : Nat),
      (st0.map Prod.fst).Nodup → lookupTok st0 token = some r →
      now - r.timestamp > ttl →
      get_next_chunk enc dec rf wf st0 token cs now ttl fresh =
        (none, cleanup_expired now ttl st0) ∧
      lookupTok (cleanup_expired now ttl st0) token = none) := by
  constructor
  · intro τ τ' enc dec enc' dec' st0 token cs now ttl fresh resp st' rf' wf' cs' now' ttl' fresh' h _
    have hgone := get_next_chunk_consumes_token enc dec false false st0 token cs now ttl
      fresh resp st' h
    rw [get_next_chunk_absent enc' dec' rf' wf' st' token cs' now' ttl' fresh' hgone]
  · intro τ enc dec rf wf st0 token r cs now ttl fresh hnd hr hexp
    exact get_next_chunk_expired enc dec rf wf st0 token cs r now ttl fresh hnd hr hexp

/-- Witness for C6: reuse after a terminal retrieval, and expiry. -/
theorem claim6_witness :
    (get_next_chunk (fun s : List Char => s) (fun l : List Char => l) false false
        ([] : Store) 3 10 0 5 8).1 = none ∧
    (get_next_chunk (fun s : List Char => s) (fun l : List Char => l) false false
        [(1, ⟨("x").data, some 1, 0⟩)] 1 5 700 600 9 =
      (none, cleanup_expired 700 600 [(1, ⟨("x").data, some 1, 0⟩)]) ∧
    lookupTok (cleanup_expired 700 600 [(1, ⟨("x").data, some 1, 0⟩)]) 1 = none) :=
  ⟨claim6_exhaustion_expiry.1 (fun s => s) (fun l => l) (fun s => s) (fun l => l)
      [(3, ⟨("ab").data, some 1, 0⟩)] 3 10 0 5 7 ⟨("ab").data, 2, false, none, 2, 0⟩
      [] false false 10 0 5 8 (by decide) (by decide),
   claim6_exhaustion_expiry.2 (fun s => s) (fun l => l) false false
      [(1, ⟨("x").data, some 1, 0⟩)] 1 ⟨("x").data, some 1, 0⟩ 5 700 600 9
      (by decide) (by decide) (by decide)⟩

/-- C7 (corrected): write errors do propagate out of `store_continuation`
and hence out of the first-continuation path of
`chunk_and_serialize_response`; read errors surface as "not found".  But a
write error while creating the successor during `get_next_chunk` does NOT
propagate: the catch-all handler turns it into "not found" as well, leaving
the old record in place. -/
theorem claim7_storage_errors_corrected :
    (∀ (st : Store) (fresh : Nat) (rc : List Char) (m : Option Nat) (now : Int),
      store_continuation true st fresh rc m now = Except.error ()) ∧
    (∀ {τ : Type} (enc : List Char → List τ) (dec : List τ → List Char)
      (st : Store) (content : List Char) (cs fresh : Nat) (now : Int),
      cs ≠ 0 → content.isEmpty = false → cs < (enc content).length →
      chunk_and_serialize_response enc dec true st content cs fresh now =
        Except.error ()) ∧
    (∀ {τ : Type} (enc : List Char → List τ) (dec : List τ → List Char) (wf : Bool)
      (st : Store) (token cs : Nat) (now ttl : Int) (fresh : Nat),
      get_next_chunk enc dec true wf st token cs now ttl fresh =
        (none, cleanup_expired now ttl st)) ∧
    (∀ {τ : Type} (enc : List Char → List τ) (dec : List τ → List Char)
      (st0 : Store) (token cs : Nat) (r0 : ContinuationRecord) (now ttl : Int)
      (fresh : Nat),
      lookupTok (cleanup_expired now ttl st0) token = some r0 →
      ¬ now - r0.timestamp > ttl → cs < (enc r0.remaining_content).length →
      get_next_chunk enc dec false true st0 token cs now ttl fresh =
        (none, cleanup_expired now ttl st0) ∧
      lookupTok (cleanup_expired now ttl st0) token = some r0) := by
  refine ⟨fun st fresh rc m now => rfl, ?_, ?_, ?_⟩
  · intro τ enc dec st content cs fresh now h1 h2 h3
    exact chunk_and_serialize_write_fault enc dec st content cs fresh now h1 h2 h3
  · intro τ enc dec wf st token cs now ttl fresh
    exact get_next_chunk_read_fault enc dec wf st token cs now ttl fresh
  · intro τ enc dec st0 token cs r0 now ttl fresh h1 h2 h3
    exact ⟨get_next_chunk_write_fault enc dec st0 token cs r0 now ttl fresh h1 h2 h3, h1⟩

/-- C7 counterexample: with a pending record needing a successor and a
failing write, `get_next_chunk` returns "not found" instead of propagating
the storage error — even though the same write raises when called directly
and propagates from the first-continuation path. -/
theorem claim7_counterexample :
    get_next_chunk (fun s : List Char => s) (fun l : List Char => l) false true
        [(1, ⟨("abcd").data, some 1, 0⟩)] 1 2 0 600 7 =
      (none, [(1, ⟨("abcd").data, some 1, 0⟩)]) ∧
    store_continuation true [] 7 (("cd").data) (some 2) 0 = Except.error () :=
  ⟨by decide, rfl⟩

/-- Witness for C7: all four behaviours at concrete inputs. -/
theorem claim7_witness :
    store_continuation true [] 7 (("cd").data) (some 2) 0 = Except.error () ∧
    chunk_and_serialize_response (fun s : List Char => s) (fun l : List Char => l)
        true [] (("abc").data) 1 1 0 = Except.error () ∧
    get_next_chunk (fun s : List Char => s) (fun l : List Char => l) true false
        ([] : Store) 1 1 0 0 7 = (none, cleanup_expired 0 0 ([] : Store)) ∧
    (get_next_chunk (fun s : List Char => s) (fun l : List Char => l) false true
        [(1, ⟨("abcd").data, some 1, 0⟩)] 1 2 0 600 7 =
      (none, cleanup_expired 0 600 [(1, ⟨("abcd").data, some 1, 0⟩)]) ∧
    lookupTok (cleanup_expired 0 600 [(1, ⟨("abcd").data, some 1, 0⟩)]) 1 =
      some ⟨("abcd").data, some 1, 0⟩) :=
  ⟨claim7_storage_errors_corrected.1 [] 7 (("cd").data) (some 2) 0,
   claim7_storage_errors_corrected.2.1 (fun s => s) (fun l => l) [] (("abc").data) 1 1 0
     (by decide) (by decide) (by decide),
   claim7_storage_errors_corrected.2.2.1 (fun s => s) (fun l => l) false [] 1 1 0 0 7,
   claim7_storage_errors_corrected.2.2.2 (fun s => s) (fun l => l)
     [(1, ⟨("abcd").data, some 1, 0⟩)] 1 2 ⟨("abcd").data, some 1, 0⟩ 0 600 7
     (by decide) (by decide) (by decide)⟩

/-- C8 (corrected): the paragraph and sentence candidates are accepted only
with a break index above 70% of `maxBytes` and a fitting final size, but the
word-break candidate has NO 70% requirement — any positive space index with
a fitting result is accepted. -/
theorem claim8_breakpoint_corrected :
    (∀ (tr : List Char) (mb : Nat) (r : List Char), tryPara tr mb = some r →
      (∃ i, pyRfind tr nlnl = some i ∧ 10 * i > 7 * mb) ∧ byteLen r ≤ mb) ∧
    (∀ (tr : List Char) (mb : Nat) (ps : List (List Char)) (r : List Char),
      trySent tr mb ps = some r →
      (∃ p i, p ∈ ps ∧ pyRfind tr p = some i ∧ 10 * i > 7 * mb) ∧ byteLen r ≤ mb) ∧
    (∀ (tr : List Char) (mb : Nat) (r : List Char), tryWord tr mb = some r →
      (∃ i, pyRfind tr [' '] = some i ∧ 0 < i) ∧ byteLen r ≤ mb) := by
  refine ⟨?_, ?_, ?_⟩
  · intro tr mb r h
    unfold tryPara at h
    split at h
    · rename_i i hi
      split at h
      · rename_i hgt
        split at h
        · rename_i hfit
          simp only [Option.some.injEq] at h
          subst h
          exact ⟨⟨i, hi, hgt⟩, hfit⟩
        · exact absurd h (by simp)
      · exact absurd h (by simp)
    · exact absurd h (by simp)
  · intro tr mb ps
    induction ps with
    | nil => intro r h; exact absurd h (by simp [trySent])
    | cons p ps ih =>
      intro r h
      unfold trySent at h
      split at h
      · rename_i i hi
        split at h
        · rename_i hgt
          split at h
          · rename_i hfit
            simp only [Option.some.injEq] at h
            subst h
            exact ⟨⟨p, i, by simp, hi, hgt⟩, hfit⟩
          · obtain ⟨⟨p', i', hp', hi', hgt'⟩, hle⟩ := ih r h
            exact ⟨⟨p', i', by simp [hp'], hi', hgt'⟩, hle⟩
        · obtain ⟨⟨p', i', hp', hi', hgt'⟩, hle⟩ := ih r h
          exact ⟨⟨p', i', by simp [hp'], hi', hgt'⟩, hle⟩
      · obtain ⟨⟨p', i', hp', hi', hgt'⟩, hle⟩ := ih r h
        exact ⟨⟨p', i', by simp [hp'], hi', hgt'⟩, hle⟩
  · intro tr mb r h
    unfold tryWord at h
    split at h
    · rename_i i hi
      split at h
      · rename_i hpos
        split at h
        · rename_i hfit
          simp only [Option.some.injEq] at h
          subst h
          exact ⟨⟨i, hi, hpos⟩, hfit⟩
        · exact absurd h (by simp)
      · exact absurd h (by simp)
    · exact absurd h (by simp)

/-- C8 counterexample: the word break at index 2 retains far less than 70%
of the 20-byte budget, yet `smart_truncate` accepts it — refuting the claim
that every candidate needs more than 70% retention. -/
theorem claim8_counterexample :
    smart_truncate (("ab cdefghijklmnopqrstuvwxyz").data) 20 = ("ab...").data ∧
    findDecodable (utf8Encode (("ab cdefghijklmnopqrstuvwxyz").data)) 20 =
      some (20, ("ab cdefghijklmnopqrs").data) ∧
    tryWord (("ab cdefghijklmnopqrs").data) 20 = some (("ab...").data) ∧
    pyRfind (("ab cdefghijklmnopqrs").data) [' '] = some 2 ∧
    ¬ 10 * 2 > 7 * 20 := by decide

/-- Witness for C8: the word-break conclusion at a concrete input. -/
theorem claim8_witness :
    (∃ i, pyRfind (("ab cdefghijklmnopqrs").data) [' '] = some i ∧ 0 < i) ∧
    byteLen (("ab...").data) ≤ 20 :=
  claim8_breakpoint_corrected.2.2 (("ab cdefghijklmnopqrs").data) 20 (("ab...").data)
    (by decide)

/-- C9 counterexample: a heading-free document parses to a single section
with priority 30 (the default score for the empty title), not 100 as
claimed — the priority-100 fallback in the source is unreachable. -/
theorem claim9_counterexample :
    extract_sections (("hello").data) = [⟨0, [], ("hello").data, 30, 5⟩] ∧
    (30 : Nat) ≠ 100 := by decide

/-- Witness for C9 at a concrete heading-free document. -/
theorem claim9_witness :
    (pyStrip (("hello").data)).isEmpty = false ∧
    extract_sections (("hello").data) =
      [⟨0, [], ("hello").data, 30, byteLen (("hello").data)⟩] :=
  ⟨by decide, extract_sections_of_no_heading (("hello").data) (by decide) (by decide)⟩

/-- C10 (confirmed): `smart_truncate` is idempotent — its output always fits
the byte budget, so a second application returns it unchanged. -/
theorem claim10_idempotent (text : List Char) (mb : Nat) (h : 1 ≤ mb) :
    smart_truncate (smart_truncate text mb) mb = smart_truncate text mb :=
  smart_truncate_idem text mb

/-- Witness for C10 at a concrete truncation. -/
theorem claim10_witness :
    1 ≤ 5 ∧
    smart_truncate (smart_truncate (("abcdefgh").data) 5) 5 =
      smart_truncate (("abcdefgh").data) 5 :=
  ⟨by decide, claim10_idempotent (("abcdefgh").data) 5 (by decide)⟩

end RTFD
